import Mathlib

/-! Identifier registry and entity storage of 4becs (unsafe variant).

A shallow embedding of `4becs_unsafe.hpp`.

* `uint64_t` values are natural numbers below `2 ^ 64`; every operation that can leave that
  range in C++ (shift, increment, subtraction, complement) is wrapped explicitly.
* The two function-local statics of `CompRegistry::getbit` form the `Cursor` state; a failed
  `assert` is the fault `Fault.capacityExceeded`.
* A component type is represented by the value of its static member `b`.
* The mask pointer of an entity is `none` for `nullptr`, and otherwise points to a block
  that is either live (with its words) or already released.
* `new` hands out fresh addresses from a counter, `delete` removes an address from the set
  of live instances.
-/

namespace Becs

/-! ## Unsigned 64-bit arithmetic -/

/-- Addition of two `uint64_t` values. -/
def add64 (a b : Nat) : Nat := (a + b) % 2 ^ 64

/-- Subtraction of two `uint64_t` values. -/
def sub64 (a b : Nat) : Nat := (a % 2 ^ 64 + (2 ^ 64 - b % 2 ^ 64)) % 2 ^ 64

/-- Left shift of a `uint64_t` value. -/
def shl64 (a n : Nat) : Nat := (a <<< n) % 2 ^ 64

/-- Bitwise complement of a `uint64_t` value. -/
def not64 (a : Nat) : Nat := (2 ^ 64 - 1) ^^^ (a % 2 ^ 64)

/-! ## Constants -/

/-- The expression `(1ULL << IDX_BITS) - 1` for an arbitrary index width. -/
def maxIdxOf (idxBits : Nat) : Nat := sub64 (shl64 1 idxBits) 1

/-- The expression `64 - IDX_BITS` for an arbitrary index width. -/
def bfBitsOf (idxBits : Nat) : Nat := sub64 64 idxBits

/-- The amount of bits used to store the index. -/
def IDX_BITS : Nat := 2

/-- The largest index: `(1ULL << IDX_BITS) - 1`. -/
def MAX_IDX : Nat := maxIdxOf IDX_BITS

/-- The amount of bits in each sub-bitfield: `64 - IDX_BITS`. -/
def BF_BITS : Nat := bfBitsOf IDX_BITS

deriving instance DecidableEq for Except

/-! ## Faults -/

/-- The ways in which an operation can fail to return. -/
inductive Fault where
  /-- The assertion `idx <= MAX_IDX` of `getbit` failed. -/
  | capacityExceeded
  /-- A write or read through a null mask pointer. -/
  | nullDeref
  /-- A read or write through a pointer to a released block. -/
  | useAfterFree
  /-- A block or an instance was released twice. -/
  | doubleFree
  /-- An array access outside of the allocated words. -/
  | outOfBounds
  deriving DecidableEq, Repr

/-! ## Identifier registry -/

/-- The function-local statics `idx` and `bit` of `CompRegistry::getbit`. -/
structure Cursor where
  idx : Nat
  bit : Nat
  deriving DecidableEq, Repr

/-- The value of the statics before the first call. -/
def Cursor.init : Cursor := ⟨0, 0⟩

/-- The body of `CompRegistry::getbit` for an arbitrary index width: the returned identifier
and the statics after the call, or the failed assertion. -/
def getbitAt (idxBits : Nat) (c : Cursor) : Except Fault (Nat × Cursor) := do
  let c1 ←
    if c.bit = bfBitsOf idxBits then
      let idx := add64 c.idx 1
      if idx ≤ maxIdxOf idxBits then pure (Cursor.mk idx 0)
      else throw Fault.capacityExceeded
    else pure c
  let fullbit := c1.idx ||| shl64 1 (add64 idxBits c1.bit)
  pure (fullbit, Cursor.mk c1.idx (add64 c1.bit 1))

/-- The function `CompRegistry::getbit` with the configured `IDX_BITS`. -/
def getbit (c : Cursor) : Except Fault (Nat × Cursor) := getbitAt IDX_BITS c

/-- The identifiers returned by `n` consecutive calls of `getbit`, in call order, and the
statics after the last one; the first failed assertion ends the run. -/
def getbitRunAt (idxBits : Nat) : Nat → Cursor → Except Fault (List Nat × Cursor)
  | 0, c => pure ([], c)
  | n + 1, c => do
    let (v, c1) ← getbitAt idxBits c
    let (vs, c2) ← getbitRunAt idxBits n c1
    pure (v :: vs, c2)

/-- The run of `n` calls with the configured `IDX_BITS`. -/
def getbitRun (n : Nat) (c : Cursor) : Except Fault (List Nat × Cursor) :=
  getbitRunAt IDX_BITS n c

/-- The statics after `n` successful calls from the start of the program. -/
def cursorAfter (n : Nat) : Except Fault Cursor :=
  (getbitRun n Cursor.init).map Prod.snd

/-- The identifier returned by call number `k + 1` from the start of the program, for an
arbitrary index width. -/
def nthBitAt (idxBits k : Nat) : Except Fault Nat := do
  let (_, c) ← getbitRunAt idxBits k Cursor.init
  let (v, _) ← getbitAt idxBits c
  pure v

/-- The identifier returned by call number `k + 1` from the start of the program. -/
def nthBit (k : Nat) : Except Fault Nat := nthBitAt IDX_BITS k

/-- The number of calls `getbit` can serve: `(MAX_IDX + 1) * BF_BITS`. -/
def CAPACITY : Nat := (MAX_IDX + 1) * BF_BITS

/-! ## Entities -/

/-- A block handed out by `calloc`: its words while it is live, nothing once released. -/
inductive Block where
  | live (words : List Nat)
  | freed
  deriving DecidableEq, Repr

/-- The type `std::unordered_map<u64bit, Comp*>`: keys are identifiers, a value is the
address of an instance, or `none` for `nullptr`. Each key occurs at most once. -/
abbrev CompMap := List (Nat × Option Nat)

/-- The entity base class `Ent`: `compMask` is `none` for `nullptr`. -/
structure Ent where
  compMask : Option Block
  compMap : CompMap
  deriving DecidableEq, Repr

/-- A freshly constructed entity: the member initialisers of `Ent`. -/
def Ent.fresh : Ent := ⟨none, []⟩

/-- The part of the process state outside of the entity: the allocator of component
instances and the lines written to `std::cerr`. -/
structure World where
  nextAddr : Nat
  live : List Nat
  cerr : List String
  deriving DecidableEq, Repr

/-- The process state at start. -/
def World.init : World := ⟨0, [], []⟩

/-- Assignment `comps[key] = val`: overwrites the entry of `key`, or adds one. -/
def mapAssign : CompMap → Nat → Option Nat → CompMap
  | [], key, val => [(key, val)]
  | (k, v) :: m, key, val =>
    if k = key then (key, val) :: m else (k, v) :: mapAssign m key val

/-- Read access `comps[key]`: the stored value and the map, which gains a `nullptr` entry
when the key was missing. -/
def mapIndex (m : CompMap) (key : Nat) : Option Nat × CompMap :=
  match m.lookup key with
  | some p => (p, m)
  | none => (none, m ++ [(key, none)])

/-- The call `free(p)`. -/
def free : Option Block → Except Fault (Option Block)
  | none => pure none
  | some (Block.live _) => pure (some Block.freed)
  | some Block.freed => throw Fault.doubleFree

/-- The expression `new C()`: a fresh address, recorded as live. -/
def newComp (w : World) : Option Nat × World :=
  (some w.nextAddr, { w with nextAddr := w.nextAddr + 1, live := w.nextAddr :: w.live })

/-- The statement `delete ptr`. -/
def deleteComp (p : Option Nat) (w : World) : Except Fault World :=
  match p with
  | none => pure w
  | some a =>
    if a ∈ w.live then pure { w with live := w.live.erase a }
    else throw Fault.doubleFree

/-- The function `has<C>(ent)`, with `b` the value of `C::b`. -/
def has (b : Nat) (ent : Ent) : Except Fault Bool :=
  match ent.compMask with
  | none => pure false
  | some Block.freed => throw Fault.useAfterFree
  | some (Block.live ws) =>
    match ws[b &&& MAX_IDX]? with
    | none => throw Fault.outOfBounds
    | some word => pure ((word &&& (b &&& not64 MAX_IDX)) != 0)

/-- The function `get<C>(ent)`, with `b` the value of `C::b`: the returned pointer and the
entity after the call. -/
def get (b : Nat) (ent : Ent) : Except Fault (Option Nat × Ent) := do
  if (← has b ent) then
    let (p, m) := mapIndex ent.compMap b
    pure (p, { ent with compMap := m })
  else
    pure (none, ent)

/-- The function `becs::setmaskbit<C...>(mask)`, the pack given by the values `C::b`, left
to right. -/
def setmaskbit : List Nat → Option Block → Except Fault (Option Block)
  | [], mask => pure mask
  | b :: bs, mask =>
    match mask with
    | none => throw Fault.nullDeref
    | some Block.freed => throw Fault.useAfterFree
    | some (Block.live ws) =>
      match ws[b &&& MAX_IDX]? with
      | none => throw Fault.outOfBounds
      | some word =>
        setmaskbit bs (some (Block.live (ws.set (b &&& MAX_IDX) (word ||| (b &&& not64 MAX_IDX)))))

/-- The function `becs::setComps<C...>(comps)`, the pack given by the values `C::b`, left
to right. -/
def setComps : List Nat → CompMap → World → CompMap × World
  | [], comps, w => (comps, w)
  | b :: bs, comps, w =>
    let (p, w1) := newComp w
    setComps bs (mapAssign comps b p) w1

/-- The line written to `std::cerr` when `calloc` returns `nullptr`. -/
def callocMessage : String := "malloc failed, constructor fail"

/-- The macro `incl(...)` expanded inside a member of the entity, the pack given by the
values `C::b`. The flag `callocOk` says whether `calloc` returns a block. -/
def incl (cs : List Nat) (callocOk : Bool) (ent : Ent) (w : World) :
    Except Fault (Ent × World) := do
  let _ ← match ent.compMask with
    | none => pure none
    | some blk => free (some blk)
  let (mask, w1) :=
    if callocOk then (some (Block.live (List.replicate (add64 MAX_IDX 1) 0)), w)
    else (none, { w with cerr := w.cerr ++ [callocMessage] })
  let mask1 ← setmaskbit cs mask
  let (comps, w2) := setComps cs ent.compMap w1
  pure (⟨mask1, comps⟩, w2)

/-- The loop `for (auto& [key, ptr] : compMap) delete ptr;`. -/
def deleteAll : CompMap → World → Except Fault World
  | [], w => pure w
  | (_, p) :: m, w => do
    let w1 ← deleteComp p w
    deleteAll m w1

/-- The macro `FREECOMPS` expanded inside a member of the entity. -/
def FREECOMPS (ent : Ent) (w : World) : Except Fault (Ent × World) := do
  let w1 ← deleteAll ent.compMap w
  let mask ← free ent.compMask
  pure ({ ent with compMask := mask }, w1)

/-- A sequence of `incl` calls on one entity, each with its pack and the outcome of its
`calloc`. -/
def inclSeq : List (List Nat × Bool) → Ent → World → Except Fault (Ent × World)
  | [], ent, w => pure (ent, w)
  | (cs, ok) :: rest, ent, w => do
    let (ent1, w1) ← incl cs ok ent w
    inclSeq rest ent1 w1

/-- The identifier `b` belongs to a component type declared within capacity: some call
of `getbit` below the capacity returned it. -/
def Allocated (b : Nat) : Prop := ∃ k, k < CAPACITY ∧ nthBit k = Except.ok b



/-! ## Helper definitions for the proofs -/

/-- The packed identifier with index `k / (64 - w)` and bit offset `k % (64 - w)`. -/
def packedAt (w k : Nat) : Nat := k / (64 - w) ||| 2 ^ (w + k % (64 - w))

/-- The statics have served exactly `k` calls. -/
def CursorAt (w k : Nat) (c : Cursor) : Prop :=
  c.idx * (64 - w) + c.bit = k ∧ c.bit ≤ 64 - w ∧ c.idx ≤ 2 ^ w - 1

/-- The word of slot `i` in a list of mask words, zero outside of the list. -/
def wordAt (ws : List Nat) (i : Nat) : Nat := (ws[i]?).getD 0

/-- The mask bit at slot `i`, bit offset `b`, of an entity is set. -/
def maskBitSet (ent : Ent) (i b : Nat) : Bool :=
  match ent.compMask with
  | some (Block.live ws) => (wordAt ws i).testBit (IDX_BITS + b)
  | _ => false

/-- The component map of an entity has an entry whose key has index `i` and bit
offset `b`. -/
def mapHasKey (ent : Ent) (i b : Nat) : Bool :=
  ent.compMap.any fun kv =>
    kv.1 &&& MAX_IDX == i && kv.1 &&& not64 MAX_IDX == 2 ^ (IDX_BITS + b)

/-- The pointers stored in a component map. -/
def mapValues (m : CompMap) : List (Option Nat) := m.map Prod.snd

/-- The map owns its instances: the stored pointers are pairwise different, none is null
and each points to a live instance; live addresses are pairwise different and smaller than
the next fresh one. -/
def OwnedBy (m : CompMap) (w : World) : Prop :=
  w.live.Nodup ∧ (∀ a ∈ w.live, a < w.nextAddr) ∧ (mapValues m).Nodup ∧
    ∀ p ∈ mapValues m, ∃ a, p = some a ∧ a ∈ w.live

/-- The keys of a component map. -/
def mapKeys (m : CompMap) : List Nat := m.map Prod.fst

/-- The number of calls `getbit` can serve for an arbitrary index width:
`(MAX_IDX + 1) * BF_BITS`. -/
def capacityOf (idxBits : Nat) : Nat := (maxIdxOf idxBits + 1) * bfBitsOf idxBits

/-- The mask array that a successful `calloc(MAX_IDX + 1, sizeof(u64bit))` returns. -/
def zeroMask : Option Block := some (Block.live (List.replicate (add64 MAX_IDX 1) 0))

/-! ## Arithmetic lemmas -/

theorem two_pow_lt_of_le_63 {w : Nat} (hw : w ≤ 63) : 2 ^ w < 2 ^ 64 :=
  Nat.pow_lt_pow_right (by decide) (by omega)

theorem maxIdxOf_eq {w : Nat} (hw : w ≤ 63) : maxIdxOf w = 2 ^ w - 1 := by
  have h1 := two_pow_lt_of_le_63 hw
  have h2 : 0 < 2 ^ w := Nat.two_pow_pos w
  unfold maxIdxOf sub64 shl64
  rw [Nat.one_shiftLeft]
  omega

theorem bfBitsOf_eq {w : Nat} (hw : w ≤ 63) : bfBitsOf w = 64 - w := by
  unfold bfBitsOf sub64
  omega

theorem IDX_BITS_eq : IDX_BITS = 2 := rfl

theorem MAX_IDX_eq : MAX_IDX = 3 := by decide

theorem BF_BITS_eq : BF_BITS = 62 := by decide

theorem CAPACITY_eq : CAPACITY = 248 := by decide

theorem shl64_one {n : Nat} (hn : n < 64) : shl64 1 n = 2 ^ n := by
  unfold shl64
  rw [Nat.one_shiftLeft]
  exact Nat.mod_eq_of_lt (Nat.pow_lt_pow_right (by decide) hn)

/-! ## The registry cursor -/

theorem cursorAt_init (w : Nat) : CursorAt w 0 Cursor.init := by
  simp [CursorAt, Cursor.init]

theorem getbitAt_eq (w : Nat) (c : Cursor) :
    getbitAt w c =
      if c.bit = bfBitsOf w then
        if add64 c.idx 1 ≤ maxIdxOf w then
          Except.ok (add64 c.idx 1 ||| shl64 1 (add64 w 0), Cursor.mk (add64 c.idx 1) (add64 0 1))
        else Except.error Fault.capacityExceeded
      else Except.ok (c.idx ||| shl64 1 (add64 w c.bit), Cursor.mk c.idx (add64 c.bit 1)) := by
  unfold getbitAt
  by_cases h1 : c.bit = bfBitsOf w
  · by_cases h2 : add64 c.idx 1 ≤ maxIdxOf w
    · simp only [h1, h2, if_true]; rfl
    · simp only [h1, h2, if_true, if_false]; rfl
  · simp only [h1, if_false]; rfl

/-- One call of `getbit` below the capacity returns the packed identifier of the call number
and advances the statics by one call. -/
theorem getbitAt_step {w k : Nat} {c : Cursor} (hw : w ≤ 63) (hc : CursorAt w k c)
    (hk : k < 2 ^ w * (64 - w)) :
    ∃ c1, getbitAt w c = Except.ok (packedAt w k, c1) ∧ CursorAt w (k + 1) c1 := by
  obtain ⟨hsum, hbit, hidx⟩ := hc
  have hB : 0 < 64 - w := by omega
  have hpow := two_pow_lt_of_le_63 hw
  have hpos : 0 < 2 ^ w := Nat.two_pow_pos w
  by_cases hb : c.bit = 64 - w
  · -- the word is exhausted: advance to the next one
    have hk1 : (c.idx + 1) * (64 - w) = k := by rw [Nat.add_mul]; omega
    have hlt : c.idx + 1 < 2 ^ w := by
      apply Nat.lt_of_mul_lt_mul_right (a := 64 - w)
      rw [hk1]; exact hk
    have hdiv : k / (64 - w) = c.idx + 1 := by
      rw [← hk1]; exact Nat.mul_div_cancel _ hB
    have hmod : k % (64 - w) = 0 := by
      rw [← hk1]; exact Nat.mul_mod_left _ _
    have hadd : add64 c.idx 1 = c.idx + 1 := by unfold add64; omega
    refine ⟨⟨c.idx + 1, 1⟩, ?_, ?_⟩
    · have hle : c.idx + 1 ≤ 2 ^ w - 1 := by omega
      have hsh : shl64 1 (add64 w 0) = 2 ^ (w + 0) := by
        have : add64 w 0 = w + 0 := by unfold add64; omega
        rw [this]; exact shl64_one (by omega)
      have h01 : add64 0 1 = 1 := by decide
      simp only [getbitAt_eq, bfBitsOf_eq hw, maxIdxOf_eq hw, hb, hadd, if_true, hle, packedAt,
        hdiv, hmod, hsh, h01]
    · refine ⟨?_, ?_, ?_⟩
      · show (c.idx + 1) * (64 - w) + 1 = k + 1
        omega
      · show 1 ≤ 64 - w
        omega
      · show c.idx + 1 ≤ 2 ^ w - 1
        omega
  · -- the word still has room
    have hlt : c.bit < 64 - w := by omega
    have hdiv : k / (64 - w) = c.idx := by
      rw [← hsum, Nat.mul_comm, Nat.mul_add_div hB, Nat.div_eq_of_lt hlt, Nat.add_zero]
    have hmod : k % (64 - w) = c.bit := by
      rw [← hsum, Nat.mul_comm, Nat.mul_add_mod, Nat.mod_eq_of_lt hlt]
    have hsh : shl64 1 (add64 w c.bit) = 2 ^ (w + c.bit) := by
      have : add64 w c.bit = w + c.bit := by unfold add64; omega
      rw [this]; exact shl64_one (by omega)
    have hadd : add64 c.bit 1 = c.bit + 1 := by unfold add64; omega
    refine ⟨⟨c.idx, c.bit + 1⟩, ?_, ?_⟩
    · simp only [getbitAt_eq, bfBitsOf_eq hw, hb, if_false, packedAt, hdiv,
        hmod, hsh, hadd]
    · refine ⟨?_, ?_, hidx⟩
      · show c.idx * (64 - w) + (c.bit + 1) = k + 1
        omega
      · show c.bit + 1 ≤ 64 - w
        omega

/-- The call of `getbit` after the capacity has been used up fails its assertion. -/
theorem getbitAt_full {w : Nat} {c : Cursor} (hw : w ≤ 63)
    (hc : CursorAt w (2 ^ w * (64 - w)) c) :
    getbitAt w c = Except.error Fault.capacityExceeded := by
  obtain ⟨hsum, hbit, hidx⟩ := hc
  have hB : 0 < 64 - w := by omega
  have hpow := two_pow_lt_of_le_63 hw
  have hpos : 0 < 2 ^ w := Nat.two_pow_pos w
  have hi : c.idx = 2 ^ w - 1 := by
    by_contra hne
    have h1 : c.idx + 2 ≤ 2 ^ w := by omega
    have h2 : (c.idx + 2) * (64 - w) ≤ 2 ^ w * (64 - w) := Nat.mul_le_mul_right _ h1
    rw [Nat.add_mul] at h2
    omega
  have hb : c.bit = 64 - w := by
    have h3 : (2 ^ w - 1 + 1) * (64 - w) = 2 ^ w * (64 - w) := by
      rw [Nat.sub_add_cancel hpos]
    rw [Nat.add_mul] at h3
    rw [hi] at hsum
    omega
  have hadd : add64 c.idx 1 = 2 ^ w := by unfold add64; omega
  have hnle : ¬ 2 ^ w ≤ 2 ^ w - 1 := by omega
  simp only [getbitAt_eq, bfBitsOf_eq hw, maxIdxOf_eq hw, hb, hadd, if_true, hnle, if_false]

theorem getbitRunAt_succ (w n : Nat) (c : Cursor) :
    getbitRunAt w (n + 1) c =
      match getbitAt w c with
      | Except.error f => Except.error f
      | Except.ok (v, c1) =>
        match getbitRunAt w n c1 with
        | Except.error f => Except.error f
        | Except.ok (vs, c2) => Except.ok (v :: vs, c2) := by
  rw [getbitRunAt]
  cases h1 : getbitAt w c with
  | error f => rfl
  | ok r =>
    obtain ⟨v, c1⟩ := r
    simp only [bind, Except.bind]
    cases h2 : getbitRunAt w n c1 with
    | error f => rfl
    | ok r2 => rfl

/-- A run that stays within the capacity returns the packed identifiers of its call
numbers, in order. -/
theorem getbitRunAt_ok {w : Nat} (hw : w ≤ 63) :
    ∀ (n k : Nat) (c : Cursor), CursorAt w k c → k + n ≤ 2 ^ w * (64 - w) →
      ∃ c1, getbitRunAt w n c = Except.ok ((List.range' k n).map (packedAt w), c1) ∧
        CursorAt w (k + n) c1 := by
  intro n
  induction n with
  | zero =>
    intro k c hc _
    exact ⟨c, rfl, hc⟩
  | succ n ih =>
    intro k c hc hk
    obtain ⟨c1, h1, hc1⟩ := getbitAt_step hw hc (by omega)
    obtain ⟨c2, h2, hc2⟩ := ih (k + 1) c1 hc1 (by omega)
    refine ⟨c2, ?_, ?_⟩
    · rw [getbitRunAt_succ, h1]
      simp only [h2, List.range'_succ, List.map_cons]
    · have : k + (n + 1) = k + 1 + n := by omega
      rw [this]; exact hc2

/-- A run that goes beyond the capacity fails the assertion. -/
theorem getbitRunAt_fail {w : Nat} (hw : w ≤ 63) :
    ∀ (n k : Nat) (c : Cursor), CursorAt w k c → k ≤ 2 ^ w * (64 - w) →
      2 ^ w * (64 - w) < k + n →
      getbitRunAt w n c = Except.error Fault.capacityExceeded := by
  intro n
  induction n with
  | zero =>
    intro k c _ h1 h2
    omega
  | succ n ih =>
    intro k c hc h1 h2
    by_cases hk : k = 2 ^ w * (64 - w)
    · rw [getbitRunAt_succ, getbitAt_full hw (hk ▸ hc)]
    · obtain ⟨c1, h3, hc1⟩ := getbitAt_step hw hc (by omega)
      rw [getbitRunAt_succ, h3]
      simp only [ih (k + 1) c1 hc1 (by omega) (by omega)]

theorem nthBitAt_eq (w k : Nat) :
    nthBitAt w k =
      match getbitRunAt w k Cursor.init with
      | Except.error f => Except.error f
      | Except.ok (_, c) =>
        match getbitAt w c with
        | Except.error f => Except.error f
        | Except.ok (v, _) => Except.ok v := by
  unfold nthBitAt
  cases h1 : getbitRunAt w k Cursor.init with
  | error f => rfl
  | ok r =>
    obtain ⟨vs, c⟩ := r
    simp only [bind, Except.bind]
    cases h2 : getbitAt w c with
    | error f => rfl
    | ok r2 => rfl

/-- Call number `k + 1` below the capacity returns the packed identifier of `k`. -/
theorem nthBitAt_ok {w k : Nat} (hw : w ≤ 63) (hk : k < 2 ^ w * (64 - w)) :
    nthBitAt w k = Except.ok (packedAt w k) := by
  obtain ⟨c, h1, hc⟩ := getbitRunAt_ok hw k 0 Cursor.init (cursorAt_init w) (by omega)
  rw [Nat.zero_add] at hc
  obtain ⟨c1, h2, _⟩ := getbitAt_step hw hc hk
  rw [nthBitAt_eq, h1]
  simp only [h2]

/-- The call right after the capacity has been used up fails the assertion. -/
theorem nthBitAt_full {w : Nat} (hw : w ≤ 63) :
    nthBitAt w (2 ^ w * (64 - w)) = Except.error Fault.capacityExceeded := by
  obtain ⟨c, h1, hc⟩ :=
    getbitRunAt_ok hw (2 ^ w * (64 - w)) 0 Cursor.init (cursorAt_init w) (by omega)
  rw [Nat.zero_add] at hc
  rw [nthBitAt_eq, h1]
  simp only [getbitAt_full hw hc]

theorem nthBit_ok {k : Nat} (hk : k < CAPACITY) : nthBit k = Except.ok (packedAt 2 k) := by
  rw [CAPACITY_eq] at hk
  exact nthBitAt_ok (w := 2) (by decide) (by omega)

/-! ## The two fields of a packed identifier -/

theorem testBit_eq_false_of_lt {i w n : Nat} (hi : i < 2 ^ w) (hn : w ≤ n) :
    i.testBit n = false :=
  Nat.testBit_lt_two_pow (Nat.lt_of_lt_of_le hi (Nat.pow_le_pow_right (by decide) hn))

/-- Masking with `2 ^ w - 1` recovers the index field. -/
theorem or_pow_and_low {w i n : Nat} (hi : i < 2 ^ w) (hn : w ≤ n) :
    (i ||| 2 ^ n) &&& (2 ^ w - 1) = i := by
  apply Nat.eq_of_testBit_eq
  intro j
  rw [Nat.testBit_and, Nat.testBit_or, Nat.testBit_two_pow_sub_one, Nat.testBit_two_pow]
  by_cases hj : j < w
  · have : ¬ n = j := by omega
    simp [hj, this]
  · have h0 := testBit_eq_false_of_lt hi (Nat.le_of_not_lt hj)
    simp [hj, h0]

theorem testBit_not64_mask {w : Nat} (hw : w ≤ 63) (j : Nat) :
    (not64 (2 ^ w - 1)).testBit j = (decide (j < 64) && !decide (j < w)) := by
  have hpow := two_pow_lt_of_le_63 hw
  have hmod : (2 ^ w - 1) % 2 ^ 64 = 2 ^ w - 1 := Nat.mod_eq_of_lt (by omega)
  unfold not64
  rw [hmod, Nat.testBit_xor, Nat.testBit_two_pow_sub_one, Nat.testBit_two_pow_sub_one]
  by_cases h1 : j < 64 <;> by_cases h2 : j < w <;> simp [h1, h2]
  omega

/-- Masking with the complement of `2 ^ w - 1` recovers the single bit of the bitfield. -/
theorem or_pow_and_high {w i n : Nat} (hw : w ≤ 63) (hi : i < 2 ^ w) (hn : w ≤ n)
    (hn64 : n < 64) : (i ||| 2 ^ n) &&& not64 (2 ^ w - 1) = 2 ^ n := by
  apply Nat.eq_of_testBit_eq
  intro j
  rw [Nat.testBit_and, Nat.testBit_or, testBit_not64_mask hw, Nat.testBit_two_pow]
  by_cases hj : j < w
  · have : ¬ n = j := by omega
    simp [hj, this]
  · have h0 := testBit_eq_false_of_lt hi (Nat.le_of_not_lt hj)
    by_cases hnj : n = j
    · have : j < 64 := by omega
      simp [hj, h0, hnj, this]
    · simp [hj, h0, hnj]

theorem packedAt_index_lt {w k : Nat} (hw : w ≤ 63) (hk : k < 2 ^ w * (64 - w)) :
    k / (64 - w) < 2 ^ w :=
  (Nat.div_lt_iff_lt_mul (by omega)).mpr hk

theorem packedAt_offset_lt {w : Nat} (hw : w ≤ 63) (k : Nat) : k % (64 - w) < 64 - w :=
  Nat.mod_lt _ (by omega)

/-- The index field of a packed identifier. -/
theorem packedAt_low {w k : Nat} (hw : w ≤ 63) (hk : k < 2 ^ w * (64 - w)) :
    packedAt w k &&& (2 ^ w - 1) = k / (64 - w) :=
  or_pow_and_low (packedAt_index_lt hw hk) (by omega)

/-- The bitfield of a packed identifier. -/
theorem packedAt_high {w k : Nat} (hw : w ≤ 63) (hk : k < 2 ^ w * (64 - w)) :
    packedAt w k &&& not64 (2 ^ w - 1) = 2 ^ (w + k % (64 - w)) := by
  have := packedAt_offset_lt hw k
  exact or_pow_and_high hw (packedAt_index_lt hw hk) (by omega) (by omega)

/-- A packed identifier fits into 64 bits. -/
theorem packedAt_lt {w k : Nat} (hw : w ≤ 63) (hk : k < 2 ^ w * (64 - w)) :
    packedAt w k < 2 ^ 64 := by
  apply Nat.lt_pow_two_of_testBit
  intro j hj
  have := packedAt_offset_lt hw k
  unfold packedAt
  rw [Nat.testBit_or, Nat.testBit_two_pow,
    testBit_eq_false_of_lt (packedAt_index_lt hw hk) (by omega)]
  have : ¬ w + k % (64 - w) = j := by omega
  simp [this]

/-- Distinct call numbers below the capacity have distinct packed identifiers. -/
theorem packedAt_injective {w j k : Nat} (hw : w ≤ 63) (hj : j < 2 ^ w * (64 - w))
    (hk : k < 2 ^ w * (64 - w)) (h : packedAt w j = packedAt w k) : j = k := by
  have hlow : j / (64 - w) = k / (64 - w) := by
    rw [← packedAt_low hw hj, ← packedAt_low hw hk, h]
  have hhigh : 2 ^ (w + j % (64 - w)) = 2 ^ (w + k % (64 - w)) := by
    rw [← packedAt_high hw hj, ← packedAt_high hw hk, h]
  have hoff : w + j % (64 - w) = w + k % (64 - w) :=
    Nat.pow_right_injective (Nat.le_refl 2) hhigh
  have h1 := Nat.div_add_mod j (64 - w)
  have h2 := Nat.div_add_mod k (64 - w)
  rw [hlow] at h1
  omega

/-! ## Reachable states of the registry -/

/-- A run from the start of the program that returns has stayed within the capacity. -/
theorem getbitRunAt_reach {w n : Nat} {vs : List Nat} {c : Cursor} (hw : w ≤ 63)
    (h : getbitRunAt w n Cursor.init = Except.ok (vs, c)) :
    n ≤ 2 ^ w * (64 - w) ∧ CursorAt w n c ∧ vs = (List.range' 0 n).map (packedAt w) := by
  by_cases hn : n ≤ 2 ^ w * (64 - w)
  · obtain ⟨c1, h1, hc1⟩ := getbitRunAt_ok hw n 0 Cursor.init (cursorAt_init w) (by omega)
    rw [h1] at h
    injection h with h
    injection h with h2 h3
    rw [Nat.zero_add] at hc1
    exact ⟨hn, h3 ▸ hc1, h2.symm⟩
  · have := getbitRunAt_fail hw n 0 Cursor.init (cursorAt_init w) (by omega) (by omega)
    rw [this] at h
    cases h

theorem cursorAfter_reach {n : Nat} {c : Cursor} (h : cursorAfter n = Except.ok c) :
    n ≤ 248 ∧ CursorAt 2 n c := by
  unfold cursorAfter getbitRun at h
  rw [IDX_BITS_eq] at h
  cases hr : getbitRunAt 2 n Cursor.init with
  | error f => rw [hr] at h; cases h
  | ok r =>
    obtain ⟨vs, c1⟩ := r
    rw [hr] at h
    have hc : c1 = c := by injection h
    have := getbitRunAt_reach (by decide) hr
    rw [hc] at this
    exact ⟨this.1, this.2.1⟩

/-- A call of `getbit` that returns, made after `n` calls from the start of the program,
returns the packed identifier of `n`, and `n` is below the capacity. -/
theorem getbit_reach {n v : Nat} {c c1 : Cursor} (hc : cursorAfter n = Except.ok c)
    (hg : getbit c = Except.ok (v, c1)) : n < 248 ∧ v = packedAt 2 n := by
  obtain ⟨hn, hat⟩ := cursorAfter_reach hc
  unfold getbit at hg
  rw [IDX_BITS_eq] at hg
  by_cases h248 : n = 248
  · subst h248
    rw [getbitAt_full (w := 2) (by decide) hat] at hg
    cases hg
  · have hlt : n < 2 ^ 2 * (64 - 2) := by omega
    obtain ⟨c2, h2, _⟩ := getbitAt_step (w := 2) (by decide) hat hlt
    rw [h2] at hg
    injection hg with hg
    injection hg with hv _
    exact ⟨by omega, hv.symm⟩

theorem nthBit_inv {k v : Nat} (h : nthBit k = Except.ok v) : k < 248 ∧ v = packedAt 2 k := by
  by_cases hk : k < 2 ^ 2 * (64 - 2)
  · have := nthBitAt_ok (w := 2) (by decide) hk
    unfold nthBit at h
    rw [IDX_BITS_eq, this] at h
    injection h with h
    exact ⟨by omega, h.symm⟩
  · exfalso
    unfold nthBit at h
    rw [IDX_BITS_eq] at h
    by_cases hk2 : k = 2 ^ 2 * (64 - 2)
    · have := nthBitAt_full (w := 2) (by decide)
      rw [hk2, this] at h
      cases h
    · have := getbitRunAt_fail (w := 2) (by decide) k 0 Cursor.init (cursorAt_init 2)
        (by omega) (by omega)
      rw [nthBitAt_eq, this] at h
      cases h

theorem packed2_low {k : Nat} (hk : k < 248) : packedAt 2 k &&& MAX_IDX = k / 62 :=
  packedAt_low (w := 2) (by decide) (by omega)

theorem packed2_high {k : Nat} (hk : k < 248) :
    packedAt 2 k &&& not64 MAX_IDX = 2 ^ (2 + k % 62) :=
  packedAt_high (w := 2) (by decide) (by omega)

theorem packed2_lt {k : Nat} (hk : k < 248) : packedAt 2 k < 2 ^ 64 :=
  packedAt_lt (w := 2) (by decide) (by omega)

theorem allocated_iff (b : Nat) : Allocated b ↔ ∃ k, k < 248 ∧ b = packedAt 2 k := by
  constructor
  · rintro ⟨k, hk, h⟩
    rw [CAPACITY_eq] at hk
    rw [nthBit_ok (by rw [CAPACITY_eq]; exact hk)] at h
    injection h with h
    exact ⟨k, hk, h.symm⟩
  · rintro ⟨k, hk, h⟩
    refine ⟨k, by rw [CAPACITY_eq]; exact hk, ?_⟩
    rw [nthBit_ok (by rw [CAPACITY_eq]; exact hk), h]

/-! ## Claims about the registry -/

/-- C3: no two allocations return the same identifier. For distinct call positions `i` and
`j` below the capacity `(MAX_IDX + 1) * BF_BITS = 248`, calls number `i + 1` and `j + 1` of
`getbit` from the initial statics both return, and their results are different 64-bit
values. -/
theorem C3_getbit_unique (i j : Nat) (hi : i < CAPACITY) (hj : j < CAPACITY) (hij : i ≠ j) :
    CAPACITY = 248 ∧
    ∃ vi vj, nthBit i = Except.ok vi ∧ nthBit j = Except.ok vj ∧
      vi < 2 ^ 64 ∧ vj < 2 ^ 64 ∧ vi ≠ vj := by
  refine ⟨CAPACITY_eq, packedAt 2 i, packedAt 2 j, nthBit_ok hi, nthBit_ok hj, ?_, ?_, ?_⟩
  · rw [CAPACITY_eq] at hi
    exact packed2_lt hi
  · rw [CAPACITY_eq] at hj
    exact packed2_lt hj
  · rw [CAPACITY_eq] at hi hj
    intro h
    exact hij (packedAt_injective (w := 2) (by decide) (by omega) (by omega) h)

theorem C3_getbit_unique_witness :
    CAPACITY = 248 ∧
    ∃ vi vj, nthBit 61 = Except.ok vi ∧ nthBit 62 = Except.ok vj ∧
      vi < 2 ^ 64 ∧ vj < 2 ^ 64 ∧ vi ≠ vj :=
  C3_getbit_unique 61 62 (by decide) (by decide) (by decide)

/-- C4: exceeding the capacity is a hard failure and nothing below it is. From the initial
statics, every run of at most `(MAX_IDX + 1) * BF_BITS = 4 * 62 = 248` calls of `getbit`
returns (so each of the first 248 calls succeeds), and call number 249 fails the assertion
`idx <= MAX_IDX`. -/
theorem C4_getbit_capacity :
    (MAX_IDX + 1) * BF_BITS = 248 ∧ MAX_IDX + 1 = 4 ∧ BF_BITS = 62 ∧
    (∀ n, n ≤ 248 → ∃ vs c, getbitRun n Cursor.init = Except.ok (vs, c) ∧ vs.length = n) ∧
    (∀ k, k < 248 → ∃ v, nthBit k = Except.ok v) ∧
    (∃ vs c, getbitRun 248 Cursor.init = Except.ok (vs, c) ∧
      getbit c = Except.error Fault.capacityExceeded) ∧
    nthBit 248 = Except.error Fault.capacityExceeded ∧
    getbitRun 249 Cursor.init = Except.error Fault.capacityExceeded := by
  refine ⟨by decide, by decide, by decide, ?_, ?_, ?_, ?_, ?_⟩
  · intro n hn
    obtain ⟨c, h, _⟩ :=
      getbitRunAt_ok (w := 2) (by decide) n 0 Cursor.init (cursorAt_init 2) (by omega)
    exact ⟨_, c, h, by simp⟩
  · intro k hk
    exact ⟨_, nthBit_ok (by rw [CAPACITY_eq]; exact hk)⟩
  · obtain ⟨c, h, hc⟩ :=
      getbitRunAt_ok (w := 2) (by decide) 248 0 Cursor.init (cursorAt_init 2) (by omega)
    exact ⟨_, c, h, getbitAt_full (w := 2) (by decide) hc⟩
  · exact nthBitAt_full (w := 2) (by decide)
  · exact getbitRunAt_fail (w := 2) (by decide) 249 0 Cursor.init (cursorAt_init 2)
      (by omega) (by omega)

/-- C8: every identifier returned by a successful `getbit` call has the packed shape. For a
call made after any number of calls from the initial statics, the returned value fits into 64
bits, its low `IDX_BITS` bits `value & MAX_IDX` are an index in `0..MAX_IDX`, and its
remaining high bits `value & ~MAX_IDX` are the power of two `2 ^ (IDX_BITS + bit)` for some
`bit < BF_BITS`, so exactly one of them is set; the value is the index or-ed with that
bit. -/
theorem C8_getbit_packed_shape (n : Nat) (c c1 : Cursor) (v : Nat)
    (hc : cursorAfter n = Except.ok c) (hg : getbit c = Except.ok (v, c1)) :
    v < 2 ^ 64 ∧ v &&& MAX_IDX ≤ MAX_IDX ∧
    (∃ bit, bit < BF_BITS ∧ v &&& not64 MAX_IDX = 2 ^ (IDX_BITS + bit) ∧
      (∀ j, (v &&& not64 MAX_IDX).testBit j = true ↔ j = IDX_BITS + bit) ∧
      v = (v &&& MAX_IDX) ||| 2 ^ (IDX_BITS + bit)) := by
  obtain ⟨hn, hv⟩ := getbit_reach hc hg
  subst hv
  have hlow := packed2_low hn
  have hhigh := packed2_high hn
  refine ⟨packed2_lt hn, ?_, n % 62, ?_, ?_, ?_, ?_⟩
  · rw [hlow, MAX_IDX_eq]
    omega
  · rw [BF_BITS_eq]
    omega
  · rw [hhigh, IDX_BITS_eq]
  · intro j
    rw [hhigh, IDX_BITS_eq, Nat.testBit_two_pow]
    simp [eq_comm]
  · rw [hlow, IDX_BITS_eq]
    rfl

theorem C8_getbit_packed_shape_witness :
    (5 : Nat) < 2 ^ 64 ∧ 5 &&& MAX_IDX ≤ MAX_IDX ∧
    (∃ bit, bit < BF_BITS ∧ 5 &&& not64 MAX_IDX = 2 ^ (IDX_BITS + bit) ∧
      (∀ j, (5 &&& not64 MAX_IDX).testBit j = true ↔ j = IDX_BITS + bit) ∧
      5 = (5 &&& MAX_IDX) ||| 2 ^ (IDX_BITS + bit)) :=
  C8_getbit_packed_shape 62 ⟨0, 62⟩ ⟨1, 1⟩ 5 (by rfl) (by rfl)

/-- C9: allocation is monotonic and word by word. For every `k < 248`, call number `k + 1` of
`getbit` from the initial statics returns `(k / 62) | (1 << (2 + k % 62))`; so the index
slot of that identifier is `k / 62`, slot 0 holds exactly the first 62 types, and the 70th
component type gets index slot 1. -/
theorem C9_getbit_word_by_word :
    (∀ k, k < 248 → nthBit k = Except.ok (k / 62 ||| 1 <<< (2 + k % 62))) ∧
    (∀ k, k < 248 → ∃ v, nthBit k = Except.ok v ∧ v &&& MAX_IDX = k / 62 ∧
      (v &&& MAX_IDX = 0 ↔ k < 62)) ∧
    (∃ v, nthBit 69 = Except.ok v ∧ v &&& MAX_IDX = 1) := by
  refine ⟨?_, ?_, ?_⟩
  · intro k hk
    rw [nthBit_ok (by rw [CAPACITY_eq]; exact hk), Nat.one_shiftLeft]
    rfl
  · intro k hk
    refine ⟨_, nthBit_ok (by rw [CAPACITY_eq]; exact hk), packed2_low hk, ?_⟩
    rw [packed2_low hk]
    omega
  · exact ⟨_, nthBit_ok (by decide), packed2_low (by decide)⟩

/-! ## The mask array -/

theorem and_MAX_IDX_lt (b : Nat) : b &&& MAX_IDX < 4 := by
  have h := @Nat.and_le_right b MAX_IDX
  rw [MAX_IDX_eq] at h ⊢
  omega

theorem wordAt_set (ws : List Nat) (i j x : Nat) (hi : i < ws.length) :
    wordAt (ws.set i x) j = if i = j then x else wordAt ws j := by
  unfold wordAt
  by_cases h : i = j
  · subst h
    simp [hi]
  · simp [h]

theorem wordAt_replicate_zero (n i : Nat) : wordAt (List.replicate n 0) i = 0 := by
  unfold wordAt
  rw [List.getElem?_replicate]
  by_cases h : i < n <;> simp [h]

/-- On a live block of four words `setmaskbit` returns, keeps the four words, and or-s into
each slot the bitfields of the listed identifiers with that index. -/
theorem setmaskbit_live : ∀ (cs ws : List Nat), ws.length = 4 →
    ∃ ws1, setmaskbit cs (some (Block.live ws)) = Except.ok (some (Block.live ws1)) ∧
      ws1.length = 4 ∧
      ∀ i j, (wordAt ws1 i).testBit j = true ↔
        ((wordAt ws i).testBit j = true ∨
          ∃ b ∈ cs, b &&& MAX_IDX = i ∧ (b &&& not64 MAX_IDX).testBit j = true) := by
  intro cs
  induction cs with
  | nil =>
    intro ws hws
    exact ⟨ws, rfl, hws, by simp⟩
  | cons b bs ih =>
    intro ws hws
    have hlt : b &&& MAX_IDX < ws.length := by rw [hws]; exact and_MAX_IDX_lt b
    have hget : ws[b &&& MAX_IDX]? = some (wordAt ws (b &&& MAX_IDX)) := by
      unfold wordAt
      rw [List.getElem?_eq_getElem hlt]
      rfl
    obtain ⟨ws1, h1, hlen, hbits⟩ :=
      ih (ws.set (b &&& MAX_IDX) (wordAt ws (b &&& MAX_IDX) ||| (b &&& not64 MAX_IDX)))
        (by rw [List.length_set]; exact hws)
    refine ⟨ws1, ?_, hlen, ?_⟩
    · simp only [setmaskbit, hget]
      exact h1
    · intro i j
      rw [hbits i j, wordAt_set _ _ _ _ hlt]
      by_cases hi : b &&& MAX_IDX = i
      · subst hi
        simp only [if_true, Nat.testBit_or, Bool.or_eq_true, List.mem_cons, exists_eq_or_imp,
          true_and]
        tauto
      · simp only [hi, if_false, List.mem_cons, exists_eq_or_imp, false_and, false_or]

theorem and_two_pow_ne_zero (x n : Nat) : ((x &&& 2 ^ n) != 0) = x.testBit n := by
  by_cases h : x.testBit n = true
  · have : x &&& 2 ^ n ≠ 0 := by
      intro h0
      have h1 : (x &&& 2 ^ n).testBit n = true := by
        rw [Nat.testBit_and, h, Nat.testBit_two_pow_self]
        rfl
      rw [h0, Nat.zero_testBit] at h1
      cases h1
    simp [h, this]
  · have h0 : x &&& 2 ^ n = 0 := by
      apply Nat.eq_of_testBit_eq
      intro j
      rw [Nat.testBit_and, Nat.testBit_two_pow, Nat.zero_testBit]
      by_cases hj : n = j
      · subst hj
        simp [h]
      · simp [hj]
    simp [h, h0]

/-- On an entity with a live mask of four words, `has` returns the test of the bitfield of
the identifier against the word of its slot. -/
theorem has_live (b : Nat) (ws : List Nat) (m : CompMap) (hws : ws.length = 4) :
    has b ⟨some (Block.live ws), m⟩ =
      Except.ok ((wordAt ws (b &&& MAX_IDX) &&& (b &&& not64 MAX_IDX)) != 0) := by
  have hlt : b &&& MAX_IDX < ws.length := by rw [hws]; exact and_MAX_IDX_lt b
  have hget : ws[b &&& MAX_IDX]? = some (wordAt ws (b &&& MAX_IDX)) := by
    unfold wordAt
    rw [List.getElem?_eq_getElem hlt]
    rfl
  simp only [has, hget]
  rfl

/-- For the identifier of call number `k + 1`, `has` tests bit `2 + k % 62` of the word in
slot `k / 62`. -/
theorem has_live_packed {k : Nat} (hk : k < 248) (ws : List Nat) (m : CompMap)
    (hws : ws.length = 4) :
    has (packedAt 2 k) ⟨some (Block.live ws), m⟩ =
      Except.ok ((wordAt ws (k / 62)).testBit (2 + k % 62)) := by
  rw [has_live _ _ _ hws, packed2_low hk, packed2_high hk, and_two_pow_ne_zero]

/-! ## The component map -/

theorem lookup_mapAssign_self (m : CompMap) (key : Nat) (val : Option Nat) :
    (mapAssign m key val).lookup key = some val := by
  induction m with
  | nil => simp [mapAssign, List.lookup]
  | cons kv m ih =>
    obtain ⟨k, v⟩ := kv
    by_cases h : k = key
    · simp [mapAssign, h, List.lookup]
    · have hne : (key == k) = false := by simp [Ne.symm h]
      simp only [mapAssign, h, if_false, List.lookup, hne]
      exact ih

theorem lookup_mapAssign_ne (m : CompMap) {key key1 : Nat} (val : Option Nat)
    (hne : key1 ≠ key) : (mapAssign m key val).lookup key1 = m.lookup key1 := by
  induction m with
  | nil =>
    have : (key1 == key) = false := by simp [hne]
    simp [mapAssign, List.lookup, this]
  | cons kv m ih =>
    obtain ⟨k, v⟩ := kv
    by_cases h : k = key
    · have h1 : (key1 == key) = false := by simp [hne]
      have h2 : (key1 == k) = false := by simp [h, hne]
      simp only [mapAssign, h, if_true, List.lookup, h1, h2]
    · by_cases h3 : key1 = k
      · simp [mapAssign, h, List.lookup, h3]
      · have h4 : (key1 == k) = false := by simp [h3]
        simp only [mapAssign, h, if_false, List.lookup, h4]
        exact ih

theorem setComps_cons (b : Nat) (bs : List Nat) (m : CompMap) (w : World) :
    setComps (b :: bs) m w =
      setComps bs (mapAssign m b (some w.nextAddr))
        { w with nextAddr := w.nextAddr + 1, live := w.nextAddr :: w.live } := rfl

/-- An identifier that is not listed keeps its entry, or its absence, in `setComps`. -/
theorem setComps_lookup_not_mem : ∀ (cs : List Nat) (m : CompMap) (w : World) (b : Nat),
    b ∉ cs → (setComps cs m w).1.lookup b = m.lookup b := by
  intro cs
  induction cs with
  | nil => intro m w b _; rfl
  | cons c rest ih =>
    intro m w b hb
    rw [setComps_cons, ih _ _ b (fun h => hb (List.mem_cons_of_mem _ h))]
    exact lookup_mapAssign_ne m _ (fun h => hb (h ▸ List.mem_cons_self _ _))

/-- A listed identifier has an entry with a non-null pointer after `setComps`. -/
theorem setComps_lookup_mem : ∀ (cs : List Nat) (m : CompMap) (w : World) (b : Nat),
    b ∈ cs → ∃ a, (setComps cs m w).1.lookup b = some (some a) := by
  intro cs
  induction cs with
  | nil => intro m w b hb; cases hb
  | cons c rest ih =>
    intro m w b hb
    rw [setComps_cons]
    by_cases hr : b ∈ rest
    · exact ih _ _ b hr
    · have hbc : b = c := by
        rcases List.mem_cons.mp hb with h | h
        · exact h
        · exact absurd h hr
      subst hbc
      refine ⟨w.nextAddr, ?_⟩
      rw [setComps_lookup_not_mem rest _ _ b hr]
      exact lookup_mapAssign_self m b _

/-! ## The macro `incl` -/

theorem add64_MAX_IDX_one : add64 MAX_IDX 1 = 4 := by decide

/-- With a successful `calloc` on an entity whose mask is not a released block, `incl`
returns: the new mask has four words and holds exactly the bitfields of the listed
identifiers, and the map is the result of `setComps`. -/
theorem incl_calloc_ok (cs : List Nat) (ent : Ent) (w : World)
    (hent : ent.compMask ≠ some Block.freed) :
    ∃ ws1, incl cs true ent w =
        Except.ok (⟨some (Block.live ws1), (setComps cs ent.compMap w).1⟩,
          (setComps cs ent.compMap w).2) ∧
      ws1.length = 4 ∧
      ∀ i j, (wordAt ws1 i).testBit j = true ↔
        ∃ b ∈ cs, b &&& MAX_IDX = i ∧ (b &&& not64 MAX_IDX).testBit j = true := by
  obtain ⟨ws1, h1, hlen, hbits⟩ :=
    setmaskbit_live cs (List.replicate 4 0) (List.length_replicate 4 0)
  refine ⟨ws1, ?_, hlen, ?_⟩
  · obtain ⟨mask, m⟩ := ent
    cases mask with
    | none =>
      simp only [incl, add64_MAX_IDX_one, if_true, h1]
      rfl
    | some blk =>
      cases blk with
      | live ws0 =>
        simp only [incl, free, add64_MAX_IDX_one, if_true, h1]
        rfl
      | freed => exact absurd rfl hent
  · intro i j
    rw [hbits i j, wordAt_replicate_zero, Nat.zero_testBit]
    simp

/-! ## Queries after `incl` -/

/-- On a mask that holds exactly the bitfields of a list of allocated identifiers, `has`
answers membership in the list for every allocated identifier. -/
theorem has_of_mask_bits (cs ws1 : List Nat) (m : CompMap)
    (hcs : ∀ b ∈ cs, Allocated b) (hlen : ws1.length = 4)
    (hbits : ∀ i j, (wordAt ws1 i).testBit j = true ↔
      ∃ b ∈ cs, b &&& MAX_IDX = i ∧ (b &&& not64 MAX_IDX).testBit j = true)
    (t : Nat) (ht : Allocated t) :
    has t ⟨some (Block.live ws1), m⟩ = Except.ok (decide (t ∈ cs)) := by
  obtain ⟨k, hk, rfl⟩ := (allocated_iff t).mp ht
  rw [has_live_packed hk ws1 m hlen]
  congr 1
  rw [Bool.eq_iff_iff, hbits, decide_eq_true_iff]
  constructor
  · rintro ⟨b, hb, hlow, hhigh⟩
    obtain ⟨k1, hk1, rfl⟩ := (allocated_iff b).mp (hcs b hb)
    rw [packed2_low hk1] at hlow
    rw [packed2_high hk1, Nat.testBit_two_pow, decide_eq_true_iff] at hhigh
    have h1 := Nat.div_add_mod k 62
    have h2 := Nat.div_add_mod k1 62
    have : k1 = k := by omega
    rw [← this]
    exact hb
  · intro hmem
    refine ⟨packedAt 2 k, hmem, packed2_low hk, ?_⟩
    rw [packed2_high hk]
    exact Nat.testBit_two_pow_self

theorem get_of_has_true {b : Nat} {ent : Ent} {p : Option Nat}
    (h : has b ent = Except.ok true) (hl : ent.compMap.lookup b = some p) :
    get b ent = Except.ok (p, ent) := by
  unfold get
  rw [h]
  simp only [mapIndex, hl]
  rfl

theorem get_of_has_false {b : Nat} {ent : Ent} (h : has b ent = Except.ok false) :
    get b ent = Except.ok (none, ent) := by
  unfold get
  rw [h]
  rfl

/-! ## Claims about installation and queries -/

/-- C1: for every list (the empty one included) of component types whose identifiers were
allocated by `getbit` within capacity, `incl` of the list on an entity returns (its `calloc`
succeeding), and afterwards `has<T>` is true for every `T` in the list and false for every
allocated `T` not in the list, whatever index slot or bit offset that `T` shares with a
listed type. -/
theorem C1_has_after_incl (cs : List Nat) (hcs : ∀ b ∈ cs, Allocated b) (ent : Ent)
    (w : World) (hent : ent.compMask ≠ some Block.freed) :
    ∃ ent1 w1, incl cs true ent w = Except.ok (ent1, w1) ∧
      (∀ t, t ∈ cs → has t ent1 = Except.ok true) ∧
      (∀ t, Allocated t → t ∉ cs → has t ent1 = Except.ok false) := by
  obtain ⟨ws1, h1, hlen, hbits⟩ := incl_calloc_ok cs ent w hent
  refine ⟨_, _, h1, ?_, ?_⟩
  · intro t ht
    rw [has_of_mask_bits cs ws1 _ hcs hlen hbits t (hcs t ht)]
    simp [ht]
  · intro t hta ht
    rw [has_of_mask_bits cs ws1 _ hcs hlen hbits t hta]
    simp [ht]

theorem C1_has_after_incl_witness :
    ∃ ent1 w1, incl [4, 5] true Ent.fresh World.init = Except.ok (ent1, w1) ∧
      (∀ t, t ∈ [4, 5] → has t ent1 = Except.ok true) ∧
      (∀ t, Allocated t → t ∉ [4, 5] → has t ent1 = Except.ok false) :=
  C1_has_after_incl [4, 5]
    (by
      intro b hb
      rcases List.mem_cons.mp hb with h | h
      · exact ⟨0, by decide, by rw [h]; rfl⟩
      · rcases List.mem_cons.mp h with h | h
        · exact ⟨62, by decide, by rw [h]; rfl⟩
        · cases h)
    Ent.fresh World.init (by decide)

/-- C2: for every list of allocated component types installed with `incl` on an entity,
`get<T>` returns a non-null pointer, the one stored in `compMap` under the identifier of
`T`, for every `T` in the list, and returns `nullptr` for every allocated type `U` not in
the list; neither call changes the entity. -/
theorem C2_get_after_incl (cs : List Nat) (hcs : ∀ b ∈ cs, Allocated b) (ent : Ent)
    (w : World) (hent : ent.compMask ≠ some Block.freed) :
    ∃ ent1 w1, incl cs true ent w = Except.ok (ent1, w1) ∧
      (∀ t, t ∈ cs → ∃ a, get t ent1 = Except.ok (some a, ent1) ∧
        ent1.compMap.lookup t = some (some a)) ∧
      (∀ u, Allocated u → u ∉ cs → get u ent1 = Except.ok (none, ent1)) := by
  obtain ⟨ws1, h1, hlen, hbits⟩ := incl_calloc_ok cs ent w hent
  refine ⟨_, _, h1, ?_, ?_⟩
  · intro t ht
    obtain ⟨a, ha⟩ := setComps_lookup_mem cs ent.compMap w t ht
    refine ⟨a, get_of_has_true ?_ ha, ha⟩
    rw [has_of_mask_bits cs ws1 _ hcs hlen hbits t (hcs t ht)]
    simp [ht]
  · intro u hua hu
    apply get_of_has_false
    rw [has_of_mask_bits cs ws1 _ hcs hlen hbits u hua]
    simp [hu]

theorem C2_get_after_incl_witness :
    ∃ ent1 w1, incl [4] true Ent.fresh World.init = Except.ok (ent1, w1) ∧
      (∀ t, t ∈ [4] → ∃ a, get t ent1 = Except.ok (some a, ent1) ∧
        ent1.compMap.lookup t = some (some a)) ∧
      (∀ u, Allocated u → u ∉ [4] → get u ent1 = Except.ok (none, ent1)) :=
  C2_get_after_incl [4]
    (by
      intro b hb
      rcases List.mem_cons.mp hb with h | h
      · exact ⟨0, by decide, by rw [h]; rfl⟩
      · cases h)
    Ent.fresh World.init (by decide)

/-- C5: re-installing fully replaces membership. For all lists `s1` and `s2` of allocated
component types, `incl` of `s1` followed by `incl` of `s2` on the same entity both return,
and afterwards `has<T>` is true exactly for the `T` in `s2`; every `T` in `s1` that is not in
`s2` has `has<T> == false` and `get<T> == nullptr`. -/
theorem C5_reinstall_replaces (s1 s2 : List Nat) (h1 : ∀ b ∈ s1, Allocated b)
    (h2 : ∀ b ∈ s2, Allocated b) (ent : Ent) (w : World)
    (hent : ent.compMask ≠ some Block.freed) :
    ∃ ent1 w1 ent2 w2, incl s1 true ent w = Except.ok (ent1, w1) ∧
      incl s2 true ent1 w1 = Except.ok (ent2, w2) ∧
      (∀ t, Allocated t → has t ent2 = Except.ok (decide (t ∈ s2))) ∧
      (∀ t, t ∈ s1 → t ∉ s2 →
        has t ent2 = Except.ok false ∧ get t ent2 = Except.ok (none, ent2)) := by
  obtain ⟨ws1, e1, _, _⟩ := incl_calloc_ok s1 ent w hent
  obtain ⟨ws2, e2, hlen, hbits⟩ :=
    incl_calloc_ok s2 ⟨some (Block.live ws1), (setComps s1 ent.compMap w).1⟩
      (setComps s1 ent.compMap w).2 (by simp)
  refine ⟨_, _, _, _, e1, e2, ?_, ?_⟩
  · intro t ht
    exact has_of_mask_bits s2 ws2 _ h2 hlen hbits t ht
  · intro t ht1 ht2
    have hf := has_of_mask_bits s2 ws2
      (setComps s2 (setComps s1 ent.compMap w).1 (setComps s1 ent.compMap w).2).1
      h2 hlen hbits t (h1 t ht1)
    simp only [ht2, decide_False] at hf
    exact ⟨hf, get_of_has_false hf⟩

theorem C5_reinstall_replaces_witness :
    ∃ ent1 w1 ent2 w2, incl [4] true Ent.fresh World.init = Except.ok (ent1, w1) ∧
      incl [5] true ent1 w1 = Except.ok (ent2, w2) ∧
      (∀ t, Allocated t → has t ent2 = Except.ok (decide (t ∈ [5]))) ∧
      (∀ t, t ∈ [4] → t ∉ [5] →
        has t ent2 = Except.ok false ∧ get t ent2 = Except.ok (none, ent2)) :=
  C5_reinstall_replaces [4] [5]
    (by
      intro b hb
      rcases List.mem_cons.mp hb with h | h
      · exact ⟨0, by decide, by rw [h]; rfl⟩
      · cases h)
    (by
      intro b hb
      rcases List.mem_cons.mp hb with h | h
      · exact ⟨62, by decide, by rw [h]; rfl⟩
      · cases h)
    Ent.fresh World.init (by decide)

/-! ## Ownership of the component instances -/

theorem mapValues_mapAssign (m : CompMap) (key : Nat) (val : Option Nat)
    (hnd : (mapValues m).Nodup) (hval : val ∉ mapValues m) :
    (mapValues (mapAssign m key val)).Nodup ∧
      ∀ p ∈ mapValues (mapAssign m key val), p = val ∨ p ∈ mapValues m := by
  induction m with
  | nil => simp [mapAssign, mapValues]
  | cons kv m ih =>
    obtain ⟨k, v⟩ := kv
    simp only [mapValues, List.map_cons, List.nodup_cons, List.mem_cons, not_or] at hnd hval
    by_cases h : k = key
    · simp only [mapAssign, h, if_true, mapValues, List.map_cons, List.nodup_cons,
        List.mem_cons]
      refine ⟨⟨hval.2, hnd.2⟩, ?_⟩
      intro p hp
      rcases hp with hp | hp
      · exact Or.inl hp
      · exact Or.inr (Or.inr hp)
    · obtain ⟨ih1, ih2⟩ := ih hnd.2 hval.2
      simp only [mapAssign, h, if_false, mapValues, List.map_cons, List.nodup_cons,
        List.mem_cons]
      refine ⟨⟨?_, ih1⟩, ?_⟩
      · intro hv
        rcases ih2 v hv with h1 | h1
        · exact hval.1 h1.symm
        · exact hnd.1 h1
      · intro p hp
        rcases hp with hp | hp
        · exact Or.inr (Or.inl hp)
        · rcases ih2 p hp with h1 | h1
          · exact Or.inl h1
          · exact Or.inr (Or.inr h1)

/-- One `comps[C::b] = new C()` keeps the ownership invariant. -/
theorem ownedBy_step (m : CompMap) (w : World) (b : Nat) (h : OwnedBy m w) :
    OwnedBy (mapAssign m b (some w.nextAddr))
      { w with nextAddr := w.nextAddr + 1, live := w.nextAddr :: w.live } := by
  obtain ⟨hl, hlt, hnd, hv⟩ := h
  have hfresh : w.nextAddr ∉ w.live := fun hm => Nat.lt_irrefl _ (hlt _ hm)
  have hval : some w.nextAddr ∉ mapValues m := by
    intro hm
    obtain ⟨a, ha, hal⟩ := hv _ hm
    injection ha with ha
    exact hfresh (ha ▸ hal)
  obtain ⟨h1, h2⟩ := mapValues_mapAssign m b (some w.nextAddr) hnd hval
  refine ⟨List.nodup_cons.mpr ⟨hfresh, hl⟩, ?_, h1, ?_⟩
  · intro a ha
    rcases List.mem_cons.mp ha with h3 | h3
    · show a < w.nextAddr + 1
      omega
    · show a < w.nextAddr + 1
      exact Nat.lt_succ_of_lt (hlt a h3)
  · intro p hp
    rcases h2 p hp with h3 | h3
    · exact ⟨w.nextAddr, h3, List.mem_cons_self _ _⟩
    · obtain ⟨a, ha, hal⟩ := hv p h3
      exact ⟨a, ha, List.mem_cons_of_mem _ hal⟩

theorem setComps_owned : ∀ (cs : List Nat) (m : CompMap) (w : World),
    OwnedBy m w → OwnedBy (setComps cs m w).1 (setComps cs m w).2 := by
  intro cs
  induction cs with
  | nil => intro m w h; exact h
  | cons b bs ih =>
    intro m w h
    rw [setComps_cons]
    exact ih _ _ (ownedBy_step m w b h)

/-- The loop of `FREECOMPS` returns on a map that owns its instances, and afterwards exactly
the instances that were not in the map are live. -/
theorem deleteAll_owned : ∀ (m : CompMap) (w : World), OwnedBy m w →
    ∃ w1, deleteAll m w = Except.ok w1 ∧ w1.nextAddr = w.nextAddr ∧ w1.cerr = w.cerr ∧
      w1.live.Nodup ∧ ∀ a, a ∈ w1.live ↔ (a ∈ w.live ∧ some a ∉ mapValues m) := by
  intro m
  induction m with
  | nil =>
    intro w h
    exact ⟨w, rfl, rfl, rfl, h.1, by simp [mapValues]⟩
  | cons kv m ih =>
    intro w h
    obtain ⟨k, p⟩ := kv
    obtain ⟨hl, hlt, hnd, hv⟩ := h
    simp only [mapValues, List.map_cons, List.nodup_cons] at hnd
    obtain ⟨a, rfl, hal⟩ := hv p (by simp [mapValues])
    have hown : OwnedBy m { w with live := w.live.erase a } := by
      refine ⟨hl.erase a, ?_, hnd.2, ?_⟩
      · intro x hx
        exact hlt x (List.mem_of_mem_erase hx)
      · intro q hq
        obtain ⟨x, hx, hxl⟩ := hv q (by simp only [mapValues, List.map_cons]; exact List.mem_cons_of_mem _ hq)
        refine ⟨x, hx, ?_⟩
        have hne : x ≠ a := by
          intro hxa
          apply hnd.1
          rw [← hxa, ← hx]
          exact hq
        exact (List.mem_erase_of_ne hne).mpr hxl
    obtain ⟨w1, h1, hn1, hc1, hnd1, hlive1⟩ := ih _ hown
    refine ⟨w1, ?_, hn1, hc1, hnd1, ?_⟩
    · simp only [deleteAll, deleteComp, hal, if_true]
      exact h1
    · intro x
      rw [hlive1 x]
      simp only [mapValues, List.map_cons, List.mem_cons, not_or, Option.some.injEq]
      show (x ∈ w.live.erase a ∧ _) ↔ _
      rw [hl.mem_erase_iff]
      tauto

/-! ## All outcomes of `incl` -/

/-- On an entity whose mask pointer dangles, `incl` releases the block a second time. -/
theorem incl_freed (cs : List Nat) (ok : Bool) (m : CompMap) (w : World) :
    incl cs ok ⟨some Block.freed, m⟩ w = Except.error Fault.doubleFree := rfl

/-- With a failing `calloc` and an empty pack, `incl` writes the message and returns an
entity without a mask array. -/
theorem incl_calloc_fail_nil (ent : Ent) (w : World) (hent : ent.compMask ≠ some Block.freed) :
    incl [] false ent w =
      Except.ok (⟨none, ent.compMap⟩, { w with cerr := w.cerr ++ [callocMessage] }) := by
  obtain ⟨mask, m⟩ := ent
  cases mask with
  | none => rfl
  | some blk =>
    cases blk with
    | live ws0 => rfl
    | freed => exact absurd rfl hent

/-- With a failing `calloc` and a non-empty pack, `setmaskbit` writes through the null mask
pointer. -/
theorem incl_calloc_fail_cons (b : Nat) (bs : List Nat) (ent : Ent) (w : World)
    (hent : ent.compMask ≠ some Block.freed) :
    incl (b :: bs) false ent w = Except.error Fault.nullDeref := by
  obtain ⟨mask, m⟩ := ent
  cases mask with
  | none => rfl
  | some blk =>
    cases blk with
    | live ws0 => rfl
    | freed => exact absurd rfl hent

/-- The outcomes of an `incl` call that returns. -/
theorem incl_cases {cs : List Nat} {ok : Bool} {ent ent1 : Ent} {w w1 : World}
    (h : incl cs ok ent w = Except.ok (ent1, w1)) :
    ent.compMask ≠ some Block.freed ∧
    ((ok = true ∧ ∃ ws1, ent1 = ⟨some (Block.live ws1), (setComps cs ent.compMap w).1⟩ ∧
        w1 = (setComps cs ent.compMap w).2 ∧ ws1.length = 4 ∧
        ∀ i j, (wordAt ws1 i).testBit j = true ↔
          ∃ b ∈ cs, b &&& MAX_IDX = i ∧ (b &&& not64 MAX_IDX).testBit j = true) ∨
     (ok = false ∧ cs = [] ∧ ent1 = ⟨none, ent.compMap⟩ ∧
        w1 = { w with cerr := w.cerr ++ [callocMessage] })) := by
  have hent : ent.compMask ≠ some Block.freed := by
    intro hf
    obtain ⟨mask, m⟩ := ent
    simp only at hf
    subst hf
    rw [incl_freed] at h
    cases h
  refine ⟨hent, ?_⟩
  cases ok with
  | true =>
    obtain ⟨ws1, h1, hlen, hbits⟩ := incl_calloc_ok cs ent w hent
    rw [h1] at h
    injection h with h
    injection h with he hw
    exact Or.inl ⟨rfl, ws1, he.symm, hw.symm, hlen, hbits⟩
  | false =>
    cases cs with
    | nil =>
      rw [incl_calloc_fail_nil ent w hent] at h
      injection h with h
      injection h with he hw
      exact Or.inr ⟨rfl, rfl, he.symm, hw.symm⟩
    | cons b bs =>
      rw [incl_calloc_fail_cons b bs ent w hent] at h
      cases h

/-- An `incl` call that returns leaves a null or live mask pointer and keeps the ownership
invariant. -/
theorem incl_owned {cs : List Nat} {ok : Bool} {ent ent1 : Ent} {w w1 : World}
    (h : incl cs ok ent w = Except.ok (ent1, w1)) (hown : OwnedBy ent.compMap w) :
    ent1.compMask ≠ some Block.freed ∧ OwnedBy ent1.compMap w1 := by
  obtain ⟨_, hc | hc⟩ := incl_cases h
  · obtain ⟨_, ws1, he, hw, _, _⟩ := hc
    subst he hw
    exact ⟨by simp, setComps_owned cs ent.compMap w hown⟩
  · obtain ⟨_, _, he, hw⟩ := hc
    subst he hw
    exact ⟨by simp, hown⟩

/-- Induction over the entity states reachable from a start state by `incl` calls. -/
theorem inclSeq_induction (P : Ent → World → Prop) (Q : List Nat → Prop)
    (hstep : ∀ cs ok ent w ent1 w1, Q cs → P ent w →
      incl cs ok ent w = Except.ok (ent1, w1) → P ent1 w1) :
    ∀ (calls : List (List Nat × Bool)) (ent0 : Ent) (w0 : World) (ent : Ent) (w : World),
      (∀ c ∈ calls, Q c.1) → P ent0 w0 →
      inclSeq calls ent0 w0 = Except.ok (ent, w) → P ent w := by
  intro calls
  induction calls with
  | nil =>
    intro ent0 w0 ent w _ h0 h
    injection h with h
    injection h with he hw
    rw [← he, ← hw]
    exact h0
  | cons c rest ih =>
    intro ent0 w0 ent w hq h0 h
    obtain ⟨cs, ok⟩ := c
    cases h1 : incl cs ok ent0 w0 with
    | error f =>
      simp only [inclSeq, h1] at h
      cases h
    | ok r =>
      obtain ⟨ent1, w1⟩ := r
      simp only [inclSeq, h1] at h
      exact ih ent1 w1 ent w (fun c hc => hq c (List.mem_cons_of_mem _ hc))
        (hstep cs ok ent0 w0 ent1 w1 (hq (cs, ok) (List.mem_cons_self _ _)) h0 h1) h

theorem ownedBy_init : OwnedBy Ent.fresh.compMap World.init := by
  simp [OwnedBy, Ent.fresh, World.init, mapValues]

/-- Every entity state reachable from a fresh entity by `incl` calls has a null or live mask
pointer and owns its instances. -/
theorem reachable_owned {calls : List (List Nat × Bool)} {ent : Ent} {w : World}
    (h : inclSeq calls Ent.fresh World.init = Except.ok (ent, w)) :
    ent.compMask ≠ some Block.freed ∧ OwnedBy ent.compMap w :=
  inclSeq_induction (fun e v => e.compMask ≠ some Block.freed ∧ OwnedBy e.compMap v)
    (fun _ => True)
    (fun _ _ _ _ _ _ _ hp hi => incl_owned hi hp.2)
    calls Ent.fresh World.init ent w (fun _ _ => trivial)
    ⟨by simp [Ent.fresh], ownedBy_init⟩ h

/-! ## Keys of the component map -/

theorem mem_of_lookup_eq_some {m : CompMap} {key : Nat} {p : Option Nat}
    (h : m.lookup key = some p) : (key, p) ∈ m := by
  induction m with
  | nil => simp [List.lookup] at h
  | cons kv m ih =>
    obtain ⟨k, v⟩ := kv
    by_cases hk : key = k
    · subst hk
      rw [List.lookup_cons_self] at h
      injection h with h
      rw [h]
      exact List.mem_cons_self _ _
    · have hne : (key == k) = false := by simp [hk]
      simp only [List.lookup, hne] at h
      exact List.mem_cons_of_mem _ (ih h)

theorem mapAssign_key_mem (m : CompMap) (key : Nat) (val : Option Nat) :
    ∀ kv ∈ mapAssign m key val, kv.1 = key ∨ kv ∈ m := by
  induction m with
  | nil =>
    intro kv hkv
    simp only [mapAssign, List.mem_singleton] at hkv
    exact Or.inl (by rw [hkv])
  | cons e m ih =>
    obtain ⟨k, v⟩ := e
    intro kv hkv
    by_cases h : k = key
    · simp only [mapAssign, h, if_true, List.mem_cons] at hkv
      rcases hkv with h1 | h1
      · exact Or.inl (by rw [h1])
      · exact Or.inr (List.mem_cons_of_mem _ h1)
    · simp only [mapAssign, h, if_false, List.mem_cons] at hkv
      rcases hkv with h1 | h1
      · exact Or.inr (by rw [h1]; exact List.mem_cons_self _ _)
      · rcases ih kv h1 with h2 | h2
        · exact Or.inl h2
        · exact Or.inr (List.mem_cons_of_mem _ h2)

/-- Every key of the map after `setComps` is a listed identifier or was a key before. -/
theorem setComps_key_mem : ∀ (cs : List Nat) (m : CompMap) (w : World),
    ∀ kv ∈ (setComps cs m w).1, kv.1 ∈ cs ∨ kv ∈ m := by
  intro cs
  induction cs with
  | nil => intro m w kv hkv; exact Or.inr hkv
  | cons b bs ih =>
    intro m w kv hkv
    rw [setComps_cons] at hkv
    rcases ih _ _ kv hkv with h | h
    · exact Or.inl (List.mem_cons_of_mem _ h)
    · rcases mapAssign_key_mem m b _ kv h with h1 | h1
      · exact Or.inl (by rw [h1]; exact List.mem_cons_self _ _)
      · exact Or.inr h1

theorem mapHasKey_iff (ent : Ent) (i b : Nat) :
    mapHasKey ent i b = true ↔
      ∃ kv ∈ ent.compMap, kv.1 &&& MAX_IDX = i ∧ kv.1 &&& not64 MAX_IDX = 2 ^ (IDX_BITS + b) := by
  simp [mapHasKey, List.any_eq_true]

/-- A mask that holds exactly the bitfields of a list of allocated identifiers has bit `b`
of slot `i` set exactly if the list has the identifier with index `i` and bit `b`. -/
theorem maskBit_iff_listed (cs ws1 : List Nat) (hcs : ∀ t ∈ cs, Allocated t)
    (hbits : ∀ i j, (wordAt ws1 i).testBit j = true ↔
      ∃ t ∈ cs, t &&& MAX_IDX = i ∧ (t &&& not64 MAX_IDX).testBit j = true)
    (i b : Nat) :
    (wordAt ws1 i).testBit (IDX_BITS + b) = true ↔
      ∃ t ∈ cs, t &&& MAX_IDX = i ∧ t &&& not64 MAX_IDX = 2 ^ (IDX_BITS + b) := by
  rw [hbits]
  constructor
  · rintro ⟨t, ht, hlow, hhigh⟩
    refine ⟨t, ht, hlow, ?_⟩
    obtain ⟨k, hk, rfl⟩ := (allocated_iff t).mp (hcs t ht)
    rw [packed2_high hk, Nat.testBit_two_pow, decide_eq_true_iff, IDX_BITS_eq] at hhigh
    rw [packed2_high hk, hhigh, IDX_BITS_eq]
  · rintro ⟨t, ht, hlow, hhigh⟩
    refine ⟨t, ht, hlow, ?_⟩
    rw [hhigh]
    exact Nat.testBit_two_pow_self

/-! ## Teardown, the mask invariant and allocation failure -/

/-- On every entity state reachable from a fresh entity by `incl` calls the macro `FREECOMPS`
returns: every instance held in the map is deleted, the other live instances, the allocator
and `std::cerr` are as before, the map keeps its entries and the mask pointer keeps its
value. When the entity had a mask array, `has` and `get` afterwards read the released block,
and a second `FREECOMPS` releases what is already released. -/
theorem FREECOMPS_reachable (calls : List (List Nat × Bool)) (ent : Ent) (w : World)
    (h : inclSeq calls Ent.fresh World.init = Except.ok (ent, w)) :
    ∃ ent1 w1, FREECOMPS ent w = Except.ok (ent1, w1) ∧
      ent1.compMap = ent.compMap ∧
      ent1.compMask = ent.compMask.map (fun _ => Block.freed) ∧
      w1.nextAddr = w.nextAddr ∧ w1.cerr = w.cerr ∧
      (∀ a, a ∈ w1.live ↔ (a ∈ w.live ∧ some a ∉ mapValues ent.compMap)) ∧
      (∀ kv ∈ ent.compMap, ∃ a, kv.2 = some a ∧ a ∈ w.live ∧ a ∉ w1.live) ∧
      (ent.compMask ≠ none → ∀ t,
        has t ent1 = Except.error Fault.useAfterFree ∧
        get t ent1 = Except.error Fault.useAfterFree) ∧
      (ent.compMask ≠ none → FREECOMPS ent1 w1 = Except.error Fault.doubleFree) := by
  obtain ⟨hmask, hown⟩ := reachable_owned h
  obtain ⟨w1, hdel, hnext, hcerr, _, hlive⟩ := deleteAll_owned ent.compMap w hown
  obtain ⟨mask, m⟩ := ent
  have hvals : ∀ kv ∈ m, ∃ a, kv.2 = some a ∧ a ∈ w.live ∧ a ∉ w1.live := by
    intro kv hkv
    have hmem : kv.2 ∈ mapValues m := List.mem_map_of_mem Prod.snd hkv
    obtain ⟨a, ha, hal⟩ := hown.2.2.2 kv.2 hmem
    refine ⟨a, ha, hal, ?_⟩
    intro hin
    exact ((hlive a).mp hin).2 (ha ▸ hmem)
  cases mask with
  | none =>
    refine ⟨⟨none, m⟩, w1, ?_, rfl, rfl, hnext, hcerr, hlive, hvals, ?_, ?_⟩
    · simp only [FREECOMPS, hdel, free]
      rfl
    · intro hne
      exact absurd rfl hne
    · intro hne
      exact absurd rfl hne
  | some blk =>
    cases blk with
    | freed => exact absurd rfl hmask
    | live ws =>
      refine ⟨⟨some Block.freed, m⟩, w1, ?_, rfl, rfl, hnext, hcerr, hlive, hvals, ?_, ?_⟩
      · simp only [FREECOMPS, hdel, free]
        rfl
      · intro _ t
        exact ⟨rfl, rfl⟩
      · intro _
        cases m with
        | nil =>
          simp only [FREECOMPS, deleteAll]
          rfl
        | cons kv rest =>
          obtain ⟨k, p⟩ := kv
          obtain ⟨a, ha, _, hnot⟩ := hvals (k, p) (List.mem_cons_self _ _)
          simp only at ha
          subst ha
          simp only [FREECOMPS, deleteAll, deleteComp, hnot, if_false]
          rfl

/-- C6: the first allocated type, with identifier 4, is installed on a fresh entity and
`FREECOMPS` runs. It deletes the instance and releases the mask array, but `compMap` still has
its entry and `compMask` still points to the released block instead of being `nullptr`: the
entity is not reset to the no-components state. A later `has` or `get` reads the released
block instead of returning false or `nullptr`, and a second `FREECOMPS`, as run by `~Ent`
after a destructor that contains the macro, releases the instance again. -/
theorem C6_teardown_leaves_dangling_state :
    nthBit 0 = Except.ok 4 ∧
    incl [4] true Ent.fresh World.init =
      Except.ok (⟨some (Block.live [4, 0, 0, 0]), [(4, some 0)]⟩, ⟨1, [0], []⟩) ∧
    FREECOMPS ⟨some (Block.live [4, 0, 0, 0]), [(4, some 0)]⟩ ⟨1, [0], []⟩ =
      Except.ok (⟨some Block.freed, [(4, some 0)]⟩, ⟨1, [], []⟩) ∧
    (Ent.mk (some Block.freed) [(4, some 0)]).compMask ≠ none ∧
    (Ent.mk (some Block.freed) [(4, some 0)]).compMap ≠ [] ∧
    has 4 ⟨some Block.freed, [(4, some 0)]⟩ ≠ Except.ok false ∧
    has 4 ⟨some Block.freed, [(4, some 0)]⟩ = Except.error Fault.useAfterFree ∧
    get 4 ⟨some Block.freed, [(4, some 0)]⟩ = Except.error Fault.useAfterFree ∧
    FREECOMPS ⟨some Block.freed, [(4, some 0)]⟩ ⟨1, [], []⟩ =
      Except.error Fault.doubleFree := by
  decide

/-- C7 (counterexample): the types with identifiers 4 and 8, both of index slot 0, are
installed by two successive `incl` calls on a fresh entity. Afterwards `compMap` has an entry
whose key has index 0 and bit 0, and the mask bit at slot 0, bit 0 is clear. -/
theorem C7_mask_map_counterexample :
    nthBit 0 = Except.ok 4 ∧ nthBit 1 = Except.ok 8 ∧
    inclSeq [([4], true), ([8], true)] Ent.fresh World.init =
      Except.ok (⟨some (Block.live [8, 0, 0, 0]), [(4, some 0), (8, some 1)]⟩,
        ⟨2, [1, 0], []⟩) ∧
    mapHasKey ⟨some (Block.live [8, 0, 0, 0]), [(4, some 0), (8, some 1)]⟩ 0 0 = true ∧
    maskBitSet ⟨some (Block.live [8, 0, 0, 0]), [(4, some 0), (8, some 1)]⟩ 0 0 = false := by
  decide

/-- C7 (amended): in every entity state reachable from a freshly constructed entity by a
sequence of `incl` calls with allocated component types, a set mask bit at slot `i`, bit `b`
implies that `compMap` contains an entry whose identifier key has index `i` and bit `b`. The
converse holds in the state after the first `incl` on the fresh entity. -/
theorem C7_mask_bit_has_entry (calls : List (List Nat × Bool))
    (hq : ∀ c ∈ calls, ∀ t ∈ c.1, Allocated t) (ent : Ent) (w : World)
    (h : inclSeq calls Ent.fresh World.init = Except.ok (ent, w)) :
    (∀ i b, maskBitSet ent i b = true → mapHasKey ent i b = true) ∧
    (calls.length = 1 →
      ∀ i b, maskBitSet ent i b = true ↔ mapHasKey ent i b = true) := by
  have hstep : ∀ (cs : List Nat) (ok : Bool) (e0 : Ent) (v0 : World) (e1 : Ent) (v1 : World),
      (∀ t ∈ cs, Allocated t) → incl cs ok e0 v0 = Except.ok (e1, v1) →
      (∀ i b, maskBitSet e1 i b = true → mapHasKey e1 i b = true) ∧
      (e0.compMap = [] → ∀ i b, mapHasKey e1 i b = true → maskBitSet e1 i b = true) := by
    intro cs ok e0 v0 e1 v1 hcs hi
    obtain ⟨_, hc | hc⟩ := incl_cases hi
    · obtain ⟨_, ws1, he, _, _, hbits⟩ := hc
      subst he
      refine ⟨?_, ?_⟩
      · intro i b hset
        have hset1 : (wordAt ws1 i).testBit (IDX_BITS + b) = true := hset
        obtain ⟨t, ht, hlow, hhigh⟩ := (maskBit_iff_listed cs ws1 hcs hbits i b).mp hset1
        obtain ⟨a, ha⟩ := setComps_lookup_mem cs e0.compMap v0 t ht
        rw [mapHasKey_iff]
        exact ⟨(t, some a), mem_of_lookup_eq_some ha, hlow, hhigh⟩
      · intro hnil i b hkey
        rw [mapHasKey_iff] at hkey
        obtain ⟨kv, hkv, hlow, hhigh⟩ := hkey
        show (wordAt ws1 i).testBit (IDX_BITS + b) = true
        rw [maskBit_iff_listed cs ws1 hcs hbits i b]
        rcases setComps_key_mem cs e0.compMap v0 kv hkv with h1 | h1
        · exact ⟨kv.1, h1, hlow, hhigh⟩
        · rw [hnil] at h1
          cases h1
    · obtain ⟨_, _, he, _⟩ := hc
      subst he
      refine ⟨?_, ?_⟩
      · intro i b hset
        cases hset
      · intro hnil i b hkey
        rw [mapHasKey_iff] at hkey
        obtain ⟨kv, hkv, _, _⟩ := hkey
        rw [hnil] at hkv
        cases hkv
  refine ⟨?_, ?_⟩
  · exact inclSeq_induction
      (fun e _ => ∀ i b, maskBitSet e i b = true → mapHasKey e i b = true)
      (fun cs => ∀ t ∈ cs, Allocated t)
      (fun cs ok e0 v0 e1 v1 hcs _ hi => (hstep cs ok e0 v0 e1 v1 hcs hi).1)
      calls Ent.fresh World.init ent w hq
      (fun i b hset => by cases hset) h
  · intro hlen i b
    match calls, hlen, hq, h with
    | [(cs, ok)], _, hq1, h1 =>
      cases hi : incl cs ok Ent.fresh World.init with
      | error f =>
        simp only [inclSeq, hi] at h1
        cases h1
      | ok r =>
        obtain ⟨e1, v1⟩ := r
        simp only [inclSeq, hi] at h1
        injection h1 with h1
        injection h1 with he hw
        subst he
        have hs := hstep cs ok Ent.fresh World.init e1 v1
          (hq1 (cs, ok) (List.mem_cons_self _ _)) hi
        exact ⟨hs.1 i b, hs.2 rfl i b⟩

theorem C7_mask_bit_has_entry_witness :
    (∀ i b,
      maskBitSet ⟨some (Block.live [8, 0, 0, 0]), [(4, some 0), (8, some 1)]⟩ i b = true →
      mapHasKey ⟨some (Block.live [8, 0, 0, 0]), [(4, some 0), (8, some 1)]⟩ i b = true) ∧
    ([([4], true), ([8], true)].length = 1 →
      ∀ i b,
        maskBitSet ⟨some (Block.live [8, 0, 0, 0]), [(4, some 0), (8, some 1)]⟩ i b = true ↔
        mapHasKey ⟨some (Block.live [8, 0, 0, 0]), [(4, some 0), (8, some 1)]⟩ i b = true) :=
  C7_mask_bit_has_entry [([4], true), ([8], true)]
    (by
      intro c hc t ht
      rcases List.mem_cons.mp hc with h | h
      · rw [h] at ht
        rcases List.mem_cons.mp ht with h1 | h1
        · exact ⟨0, by decide, by rw [h1]; rfl⟩
        · cases h1
      · rcases List.mem_cons.mp h with h2 | h2
        · rw [h2] at ht
          rcases List.mem_cons.mp ht with h1 | h1
          · exact ⟨1, by decide, by rw [h1]; rfl⟩
          · cases h1
        · cases h2)
    ⟨some (Block.live [8, 0, 0, 0]), [(4, some 0), (8, some 1)]⟩ ⟨2, [1, 0], []⟩ (by rfl)

/-- C10: with a failing `calloc`, `incl` of the first allocated type (identifier 4) on a fresh
entity does not complete: after the message is written, `setmaskbit` writes through the null
mask pointer. The same holds for every non-empty pack; only the empty pack completes, leaving
the entity without a mask array and the message on `std::cerr`. -/
theorem C10_incl_calloc_failure_faults :
    nthBit 0 = Except.ok 4 ∧
    incl [4] false Ent.fresh World.init = Except.error Fault.nullDeref ∧
    (∀ (b : Nat) (bs : List Nat) (w : World),
      incl (b :: bs) false Ent.fresh w = Except.error Fault.nullDeref) ∧
    incl [] false Ent.fresh World.init =
      Except.ok (⟨none, []⟩, ⟨0, [], [callocMessage]⟩) :=
  ⟨rfl, rfl, fun _ _ _ => rfl, rfl⟩

/-! ## Capacity for other index widths -/

theorem capacityOf_eq {w : Nat} (hw : w ≤ 63) : capacityOf w = 2 ^ w * (64 - w) := by
  have hpos : 0 < 2 ^ w := Nat.two_pow_pos w
  unfold capacityOf
  rw [maxIdxOf_eq hw, bfBitsOf_eq hw, Nat.sub_add_cancel hpos]

/-- A run of `getbit` calls from the start of the program returns exactly if it stays within
the capacity of the index width. -/
theorem getbitRunAt_ok_iff {w : Nat} (hw : w ≤ 63) (n : Nat) :
    (∃ vs c, getbitRunAt w n Cursor.init = Except.ok (vs, c)) ↔ n ≤ 2 ^ w * (64 - w) := by
  constructor
  · rintro ⟨vs, c, h⟩
    exact (getbitRunAt_reach hw h).1
  · intro hn
    obtain ⟨c, h, _⟩ := getbitRunAt_ok hw n 0 Cursor.init (cursorAt_init w) (by omega)
    exact ⟨_, c, h⟩

/-- C11 (counterexample): with `IDX_BITS = 4` the capacity is `16 * 60 = 960`, so call number
961 already fails the assertion and no run of 976 calls returns; with `IDX_BITS = 5` the
capacity is `32 * 59 = 1888`, so call number 1889 fails and no run of 1920 calls returns. -/
theorem C11_capacity_counterexample :
    capacityOf 4 = 960 ∧ nthBitAt 4 960 = Except.error Fault.capacityExceeded ∧
    getbitRunAt 4 976 Cursor.init = Except.error Fault.capacityExceeded ∧
    capacityOf 5 = 1888 ∧ nthBitAt 5 1888 = Except.error Fault.capacityExceeded ∧
    getbitRunAt 5 1920 Cursor.init = Except.error Fault.capacityExceeded :=
  ⟨by decide, nthBitAt_full (w := 4) (by decide),
    getbitRunAt_fail (w := 4) (by decide) 976 0 Cursor.init (cursorAt_init 4)
      (by omega) (by omega),
    by decide, nthBitAt_full (w := 5) (by decide),
    getbitRunAt_fail (w := 5) (by decide) 1920 0 Cursor.init (cursorAt_init 5)
      (by omega) (by omega)⟩

/-- C11 (amended): the maximum number of components the registry can allocate before the
capacity assertion fires is `(MAX_IDX + 1) * BF_BITS = 2 ^ IDX_BITS * (64 - IDX_BITS)`: a run
of `n` calls of `getbit` from the initial statics returns exactly if `n` is at most 248 for
`IDX_BITS = 2`, 488 for `IDX_BITS = 3`, 960 for `IDX_BITS = 4` and 1888 for
`IDX_BITS = 5`. -/
theorem C11_capacity_by_width :
    (capacityOf 2 = 248 ∧ capacityOf 3 = 488 ∧ capacityOf 4 = 960 ∧ capacityOf 5 = 1888) ∧
    (∀ n, (∃ vs c, getbitRunAt 2 n Cursor.init = Except.ok (vs, c)) ↔ n ≤ 248) ∧
    (∀ n, (∃ vs c, getbitRunAt 3 n Cursor.init = Except.ok (vs, c)) ↔ n ≤ 488) ∧
    (∀ n, (∃ vs c, getbitRunAt 4 n Cursor.init = Except.ok (vs, c)) ↔ n ≤ 960) ∧
    (∀ n, (∃ vs c, getbitRunAt 5 n Cursor.init = Except.ok (vs, c)) ↔ n ≤ 1888) ∧
    (∀ w n, w ≤ 63 →
      ((∃ vs c, getbitRunAt w n Cursor.init = Except.ok (vs, c)) ↔ n ≤ capacityOf w)) := by
  refine ⟨⟨by decide, by decide, by decide, by decide⟩, ?_, ?_, ?_, ?_, ?_⟩
  · intro n
    exact getbitRunAt_ok_iff (w := 2) (by decide) n
  · intro n
    exact getbitRunAt_ok_iff (w := 3) (by decide) n
  · intro n
    exact getbitRunAt_ok_iff (w := 4) (by decide) n
  · intro n
    exact getbitRunAt_ok_iff (w := 5) (by decide) n
  · intro w n hw
    rw [capacityOf_eq hw]
    exact getbitRunAt_ok_iff hw n

/-- C12: for an entity on which nothing has been installed (`compMask == nullptr`),
`has<T>` returns false and `get<T>` returns `nullptr` for every component type `T`, whatever
`compMap` contains; `get` leaves the entity as it is. -/
theorem C12_queries_without_mask (b : Nat) (m : CompMap) :
    has b ⟨none, m⟩ = Except.ok false ∧
    get b ⟨none, m⟩ = Except.ok (none, ⟨none, m⟩) :=
  ⟨rfl, rfl⟩

/-- C13: the scheme works for every index width from 0 to 63. With
`MAX_IDX = 2 ^ IDX_BITS - 1` and `BF_BITS = 64 - IDX_BITS`, every call of `getbit` within the
capacity `(MAX_IDX + 1) * BF_BITS` returns; the identifier fits into 64 bits, is the index
or-ed with the unwrapped shift `1 << (IDX_BITS + bit)` whose shift count is below 64, keeps
the index in its low `IDX_BITS` bits and exactly the one bit `IDX_BITS + bit` in its high
`BF_BITS` bits; and distinct calls return distinct identifiers. -/
theorem C13_scheme_every_width (w : Nat) (hw : w ≤ 63) :
    maxIdxOf w = 2 ^ w - 1 ∧ bfBitsOf w = 64 - w ∧
    (∀ k, k < capacityOf w → ∃ v, nthBitAt w k = Except.ok v ∧ v < 2 ^ 64 ∧
      k / bfBitsOf w ≤ maxIdxOf w ∧ k % bfBitsOf w < bfBitsOf w ∧
      w + k % bfBitsOf w < 64 ∧
      v = k / bfBitsOf w ||| 1 <<< (w + k % bfBitsOf w) ∧
      v &&& maxIdxOf w = k / bfBitsOf w ∧
      v &&& not64 (maxIdxOf w) = 2 ^ (w + k % bfBitsOf w) ∧
      (∀ j, (v &&& not64 (maxIdxOf w)).testBit j = true ↔ j = w + k % bfBitsOf w)) ∧
    (∀ j k, j < capacityOf w → k < capacityOf w → j ≠ k → nthBitAt w j ≠ nthBitAt w k) := by
  have hpos : 0 < 2 ^ w := Nat.two_pow_pos w
  refine ⟨maxIdxOf_eq hw, bfBitsOf_eq hw, ?_, ?_⟩
  · intro k hk
    rw [capacityOf_eq hw] at hk
    rw [maxIdxOf_eq hw, bfBitsOf_eq hw]
    have hidx := packedAt_index_lt hw hk
    have hoff := packedAt_offset_lt hw k
    refine ⟨packedAt w k, nthBitAt_ok hw hk, packedAt_lt hw hk, by omega, hoff, by omega,
      ?_, packedAt_low hw hk, packedAt_high hw hk, ?_⟩
    · rw [Nat.one_shiftLeft]
      rfl
    · intro j
      rw [packedAt_high hw hk, Nat.testBit_two_pow]
      simp [eq_comm]
  · intro j k hj hk hjk h
    rw [capacityOf_eq hw] at hj hk
    rw [nthBitAt_ok hw hj, nthBitAt_ok hw hk] at h
    injection h with h
    exact hjk (packedAt_injective hw hj hk h)

theorem C13_scheme_every_width_witness :
    maxIdxOf 63 = 2 ^ 63 - 1 ∧ bfBitsOf 63 = 64 - 63 ∧
    (∀ k, k < capacityOf 63 → ∃ v, nthBitAt 63 k = Except.ok v ∧ v < 2 ^ 64 ∧
      k / bfBitsOf 63 ≤ maxIdxOf 63 ∧ k % bfBitsOf 63 < bfBitsOf 63 ∧
      63 + k % bfBitsOf 63 < 64 ∧
      v = k / bfBitsOf 63 ||| 1 <<< (63 + k % bfBitsOf 63) ∧
      v &&& maxIdxOf 63 = k / bfBitsOf 63 ∧
      v &&& not64 (maxIdxOf 63) = 2 ^ (63 + k % bfBitsOf 63) ∧
      (∀ j, (v &&& not64 (maxIdxOf 63)).testBit j = true ↔ j = 63 + k % bfBitsOf 63)) ∧
    (∀ j k, j < capacityOf 63 → k < capacityOf 63 → j ≠ k →
      nthBitAt 63 j ≠ nthBitAt 63 k) :=
  C13_scheme_every_width 63 (by decide)

/-! ## Unique keys and the order of construction in `setComps` -/

/-- Assignment keeps the keys when the key is present and appends it otherwise. -/
theorem mapKeys_mapAssign (m : CompMap) (key : Nat) (val : Option Nat) :
    mapKeys (mapAssign m key val) = if key ∈ mapKeys m then mapKeys m else mapKeys m ++ [key] := by
  induction m with
  | nil => simp [mapAssign, mapKeys]
  | cons kv m ih =>
    obtain ⟨k, v⟩ := kv
    by_cases h : k = key
    · subst h
      simp [mapAssign, mapKeys]
    · have hne : ¬ key = k := fun e => h e.symm
      simp only [mapKeys] at ih
      by_cases hm : key ∈ List.map Prod.fst m
      · simp [mapAssign, mapKeys, h, hne, hm, ih]
      · simp [mapAssign, mapKeys, h, hne, hm, ih]

theorem mem_mapKeys_mapAssign (m : CompMap) (key : Nat) (val : Option Nat) (k : Nat) :
    k ∈ mapKeys (mapAssign m key val) ↔ k = key ∨ k ∈ mapKeys m := by
  rw [mapKeys_mapAssign]
  by_cases hm : key ∈ mapKeys m
  · simp only [hm, if_true]
    constructor
    · intro h; exact Or.inr h
    · rintro (h | h)
      · rw [h]; exact hm
      · exact h
  · simp only [hm, if_false, List.mem_append, List.mem_singleton]
    tauto

theorem nodup_mapKeys_mapAssign (m : CompMap) (key : Nat) (val : Option Nat)
    (h : (mapKeys m).Nodup) : (mapKeys (mapAssign m key val)).Nodup := by
  rw [mapKeys_mapAssign]
  by_cases hm : key ∈ mapKeys m
  · simp only [hm, if_true]
    exact h
  · simp only [hm, if_false]
    rw [List.nodup_append]
    refine ⟨h, List.nodup_singleton key, ?_⟩
    intro a ha hb
    rw [List.mem_singleton] at hb
    exact hm (hb ▸ ha)

/-- The keys after `setComps` are the keys before and the listed identifiers. -/
theorem mem_mapKeys_setComps : ∀ (cs : List Nat) (m : CompMap) (w : World) (k : Nat),
    k ∈ mapKeys (setComps cs m w).1 ↔ k ∈ cs ∨ k ∈ mapKeys m := by
  intro cs
  induction cs with
  | nil => intro m w k; simp [setComps]
  | cons b bs ih =>
    intro m w k
    rw [setComps_cons, ih, mem_mapKeys_mapAssign, List.mem_cons]
    tauto

theorem nodup_mapKeys_setComps : ∀ (cs : List Nat) (m : CompMap) (w : World),
    (mapKeys m).Nodup → (mapKeys (setComps cs m w).1).Nodup := by
  intro cs
  induction cs with
  | nil => intro m w h; exact h
  | cons b bs ih =>
    intro m w h
    rw [setComps_cons]
    exact ih _ _ (nodup_mapKeys_mapAssign m b _ h)

/-- In a map with unique keys every entry is the one that a lookup of its key finds. -/
theorem lookup_of_mem {m : CompMap} (hnd : (mapKeys m).Nodup) {k : Nat} {p : Option Nat}
    (h : (k, p) ∈ m) : m.lookup k = some p := by
  induction m with
  | nil => cases h
  | cons kv m ih =>
    obtain ⟨k0, v0⟩ := kv
    simp only [mapKeys, List.map_cons, List.nodup_cons] at hnd
    rcases List.mem_cons.mp h with h1 | h1
    · injection h1 with hk hv
      subst hk hv
      exact List.lookup_cons_self
    · have hne : ¬ k = k0 := by
        intro e
        apply hnd.1
        rw [← e]
        exact List.mem_map_of_mem Prod.fst h1
      have hb : (k == k0) = false := by simp [hne]
      simp only [List.lookup, hb]
      exact ih hnd.2 h1

theorem setComps_append : ∀ (xs ys : List Nat) (m : CompMap) (w : World),
    setComps (xs ++ ys) m w = setComps ys (setComps xs m w).1 (setComps xs m w).2 := by
  intro xs
  induction xs with
  | nil => intro ys m w; rfl
  | cons b bs ih =>
    intro ys m w
    rw [List.cons_append, setComps_cons, setComps_cons, ih]

/-- The allocator after `setComps`: one fresh address per listed identifier, all live, and
nothing written to `std::cerr`. -/
theorem setComps_world : ∀ (cs : List Nat) (m : CompMap) (w : World),
    (setComps cs m w).2.nextAddr = w.nextAddr + cs.length ∧
    (setComps cs m w).2.cerr = w.cerr ∧
    ∀ a, a ∈ (setComps cs m w).2.live ↔
      (a ∈ w.live ∨ (w.nextAddr ≤ a ∧ a < w.nextAddr + cs.length)) := by
  intro cs
  induction cs with
  | nil =>
    intro m w
    refine ⟨rfl, rfl, ?_⟩
    intro a
    simp only [setComps, List.length_nil, Nat.add_zero]
    constructor
    · intro h; exact Or.inl h
    · rintro (h | h)
      · exact h
      · omega
  | cons b bs ih =>
    intro m w
    rw [setComps_cons]
    obtain ⟨h1, h2, h3⟩ := ih (mapAssign m b (some w.nextAddr))
      { w with nextAddr := w.nextAddr + 1, live := w.nextAddr :: w.live }
    refine ⟨?_, h2, ?_⟩
    · rw [h1, List.length_cons]
      show w.nextAddr + 1 + bs.length = w.nextAddr + (bs.length + 1)
      omega
    · intro a
      have h4 : a ∈ (setComps bs (mapAssign m b (some w.nextAddr))
            { w with nextAddr := w.nextAddr + 1, live := w.nextAddr :: w.live }).2.live ↔
          ((a = w.nextAddr ∨ a ∈ w.live) ∨
            (w.nextAddr + 1 ≤ a ∧ a < w.nextAddr + 1 + bs.length)) := by
        rw [h3 a, List.mem_cons]
      rw [h4, List.length_cons]
      constructor
      · rintro ((h | h) | h)
        · exact Or.inr ⟨by omega, by omega⟩
        · exact Or.inl h
        · exact Or.inr ⟨by omega, by omega⟩
      · rintro (h | h)
        · exact Or.inl (Or.inr h)
        · by_cases e : a = w.nextAddr
          · exact Or.inl (Or.inl e)
          · exact Or.inr ⟨by omega, by omega⟩

/-- The entry of a listed identifier holds the instance constructed at its last position in
the pack. -/
theorem setComps_lookup_last (pre suf : List Nat) (t : Nat) (m : CompMap) (w : World)
    (ht : t ∉ suf) :
    (setComps (pre ++ t :: suf) m w).1.lookup t = some (some (w.nextAddr + pre.length)) := by
  rw [setComps_append, setComps_cons, setComps_lookup_not_mem suf _ _ t ht,
    lookup_mapAssign_self, (setComps_world pre m w).1]

/-- Every member of a list has a last position in it. -/
theorem exists_last_position : ∀ (cs : List Nat) (t : Nat), t ∈ cs →
    ∃ pre suf, cs = pre ++ t :: suf ∧ t ∉ suf := by
  intro cs
  induction cs with
  | nil => intro t h; cases h
  | cons b bs ih =>
    intro t h
    by_cases hb : t ∈ bs
    · obtain ⟨pre, suf, e, hs⟩ := ih t hb
      exact ⟨b :: pre, suf, by rw [e]; rfl, hs⟩
    · have e : t = b := by
        rcases List.mem_cons.mp h with h1 | h1
        · exact h1
        · exact absurd h1 hb
      subst e
      exact ⟨[], bs, rfl, hb⟩

/-- A listed identifier has an entry that holds an instance constructed by this `setComps`. -/
theorem setComps_lookup_fresh (cs : List Nat) (m : CompMap) (w : World) (t : Nat)
    (ht : t ∈ cs) :
    ∃ a, (setComps cs m w).1.lookup t = some (some a) ∧ w.nextAddr ≤ a ∧
      a < (setComps cs m w).2.nextAddr := by
  obtain ⟨pre, suf, e, hs⟩ := exists_last_position cs t ht
  refine ⟨w.nextAddr + pre.length, ?_, by omega, ?_⟩
  · rw [e]
    exact setComps_lookup_last pre suf t m w hs
  · rw [(setComps_world cs m w).1, e, List.length_append, List.length_cons]
    omega

/-- Every entity state reachable from a fresh entity by `incl` calls has unique keys in its
component map. -/
theorem reachable_keys_nodup {calls : List (List Nat × Bool)} {ent : Ent} {w : World}
    (h : inclSeq calls Ent.fresh World.init = Except.ok (ent, w)) :
    (mapKeys ent.compMap).Nodup :=
  inclSeq_induction (fun e _ => (mapKeys e.compMap).Nodup) (fun _ => True)
    (fun cs _ e0 v0 e1 _ _ hp hi => by
      obtain ⟨_, hc | hc⟩ := incl_cases hi
      · obtain ⟨_, ws1, he, _, _, _⟩ := hc
        rw [he]
        exact nodup_mapKeys_setComps cs e0.compMap v0 hp
      · obtain ⟨_, _, he, _⟩ := hc
        rw [he]
        exact hp)
    calls Ent.fresh World.init ent w (fun _ _ => trivial) List.nodup_nil h

/-- An entry of the map after `setComps` that holds an instance constructed by this
`setComps` belongs to a listed identifier and holds the instance of its last position. -/
theorem setComps_value_last (cs : List Nat) (m : CompMap) (w : World) (hown : OwnedBy m w)
    (hnd : (mapKeys m).Nodup) {k a : Nat} (hmem : (k, some a) ∈ (setComps cs m w).1)
    (ha : w.nextAddr ≤ a) :
    ∃ pre suf, cs = pre ++ k :: suf ∧ k ∉ suf ∧ a = w.nextAddr + pre.length := by
  have hl := lookup_of_mem (nodup_mapKeys_setComps cs m w hnd) hmem
  by_cases hk : k ∈ cs
  · obtain ⟨pre, suf, e, hs⟩ := exists_last_position cs k hk
    refine ⟨pre, suf, e, hs, ?_⟩
    have h2 := setComps_lookup_last pre suf k m w hs
    rw [← e, hl] at h2
    injection h2 with h2
    injection h2 with h2
  · exfalso
    rw [setComps_lookup_not_mem cs m w k hk] at hl
    have hv : some a ∈ mapValues m := List.mem_map_of_mem Prod.snd (mem_of_lookup_eq_some hl)
    obtain ⟨a1, e1, hlive⟩ := hown.2.2.2 _ hv
    injection e1 with e1
    have := hown.2.1 a1 hlive
    omega

/-! ## Claims about the component map -/

/-- C14: `get` never adds an entry to the component map. In every entity state reachable from
a fresh entity by `incl` calls with allocated component types, and for every allocated
component type `C`, `get<C>` returns and leaves `compMap` and `compMask` as they are: either
`has<C>` is true, and then the key `C::b` is present and its value is returned, or `has<C>`
is false and `nullptr` is returned without indexing the map. -/
theorem C14_get_keeps_entity (calls : List (List Nat × Bool))
    (hq : ∀ c ∈ calls, ∀ t ∈ c.1, Allocated t) (ent : Ent) (w : World)
    (h : inclSeq calls Ent.fresh World.init = Except.ok (ent, w)) (t : Nat)
    (ht : Allocated t) :
    ∃ p, get t ent = Except.ok (p, ent) ∧
      ((has t ent = Except.ok true ∧ ent.compMap.lookup t = some p) ∨
       (has t ent = Except.ok false ∧ p = none)) := by
  revert t
  refine inclSeq_induction
    (fun e _ => ∀ t, Allocated t → ∃ p, get t e = Except.ok (p, e) ∧
      ((has t e = Except.ok true ∧ e.compMap.lookup t = some p) ∨
       (has t e = Except.ok false ∧ p = none)))
    (fun cs => ∀ t ∈ cs, Allocated t) ?_ calls Ent.fresh World.init ent w hq ?_ h
  · intro cs ok e0 v0 e1 v1 hcs _ hi t ht
    obtain ⟨_, hc | hc⟩ := incl_cases hi
    · obtain ⟨_, ws1, he, _, hlen, hbits⟩ := hc
      subst he
      have hhas := has_of_mask_bits cs ws1 (setComps cs e0.compMap v0).1 hcs hlen hbits t ht
      by_cases hm : t ∈ cs
      · obtain ⟨a, ha⟩ := setComps_lookup_mem cs e0.compMap v0 t hm
        simp only [hm, decide_True] at hhas
        exact ⟨some a, get_of_has_true hhas ha, Or.inl ⟨hhas, ha⟩⟩
      · simp only [hm, decide_False] at hhas
        exact ⟨none, get_of_has_false hhas, Or.inr ⟨hhas, rfl⟩⟩
    · obtain ⟨_, _, he, _⟩ := hc
      subst he
      exact ⟨none, rfl, Or.inr ⟨rfl, rfl⟩⟩
  · intro t _
    exact ⟨none, rfl, Or.inr ⟨rfl, rfl⟩⟩

theorem C14_get_keeps_entity_witness :
    ∃ p, get 4 ⟨some (Block.live [8, 0, 0, 0]), [(4, some 0), (8, some 1)]⟩ =
        Except.ok (p, ⟨some (Block.live [8, 0, 0, 0]), [(4, some 0), (8, some 1)]⟩) ∧
      ((has 4 ⟨some (Block.live [8, 0, 0, 0]), [(4, some 0), (8, some 1)]⟩ = Except.ok true ∧
          (Ent.mk (some (Block.live [8, 0, 0, 0])) [(4, some 0), (8, some 1)]).compMap.lookup 4
            = some p) ∨
       (has 4 ⟨some (Block.live [8, 0, 0, 0]), [(4, some 0), (8, some 1)]⟩ = Except.ok false ∧
          p = none)) :=
  C14_get_keeps_entity [([4], true), ([8], true)]
    (by
      intro c hc t ht
      rcases List.mem_cons.mp hc with h | h
      · rw [h] at ht
        rcases List.mem_cons.mp ht with h1 | h1
        · exact ⟨0, by decide, by rw [h1]; rfl⟩
        · cases h1
      · rcases List.mem_cons.mp h with h2 | h2
        · rw [h2] at ht
          rcases List.mem_cons.mp ht with h1 | h1
          · exact ⟨1, by decide, by rw [h1]; rfl⟩
          · cases h1
        · cases h2)
    ⟨some (Block.live [8, 0, 0, 0]), [(4, some 0), (8, some 1)]⟩ ⟨2, [1, 0], []⟩ (by rfl)
    4 ⟨0, by decide, rfl⟩

/-- C15: listing the same type `T` more than once in a single `incl` call. The pack is
`p1 ++ T :: p2 ++ T :: suf` with the last occurrence of `T` at position
`p1.length + 1 + p2.length` and an earlier one at position `p1.length`; the instance
constructed for position `i` is the address `nextAddr + i`. On every entity state reachable
from a fresh entity, `incl` returns and leaves exactly one `compMap` entry under the
identifier of `T`; it holds the instance constructed last, the earlier instance is no longer
referenced by the map (while it is still live), and `has<T>` is true. -/
theorem C15_duplicate_in_pack (calls : List (List Nat × Bool)) (ent : Ent) (w : World)
    (h : inclSeq calls Ent.fresh World.init = Except.ok (ent, w))
    (p1 p2 suf : List Nat) (t : Nat)
    (hcs : ∀ b ∈ p1 ++ t :: (p2 ++ t :: suf), Allocated b) (hsuf : t ∉ suf) :
    ∃ ent1 w1, incl (p1 ++ t :: (p2 ++ t :: suf)) true ent w = Except.ok (ent1, w1) ∧
      (mapKeys ent1.compMap).count t = 1 ∧
      ent1.compMap.lookup t = some (some (w.nextAddr + (p1.length + 1 + p2.length))) ∧
      some (w.nextAddr + p1.length) ∉ mapValues ent1.compMap ∧
      w.nextAddr + p1.length ∈ w1.live ∧
      has t ent1 = Except.ok true := by
  obtain ⟨hmask, hown⟩ := reachable_owned h
  have hnd := reachable_keys_nodup h
  obtain ⟨ws1, h1, hlen, hbits⟩ := incl_calloc_ok (p1 ++ t :: (p2 ++ t :: suf)) ent w hmask
  have hmem : t ∈ p1 ++ t :: (p2 ++ t :: suf) :=
    List.mem_append_right _ (List.mem_cons_self _ _)
  have hlast : (setComps (p1 ++ t :: (p2 ++ t :: suf)) ent.compMap w).1.lookup t =
      some (some (w.nextAddr + (p1.length + 1 + p2.length))) := by
    have e : p1 ++ t :: (p2 ++ t :: suf) = (p1 ++ t :: p2) ++ t :: suf := by simp
    have hl := setComps_lookup_last (p1 ++ t :: p2) suf t ent.compMap w hsuf
    rw [List.length_append, List.length_cons, ← e] at hl
    rw [hl]
    have : p1.length + (p2.length + 1) = p1.length + 1 + p2.length := by omega
    rw [this]
  have hnd1 := nodup_mapKeys_setComps (p1 ++ t :: (p2 ++ t :: suf)) ent.compMap w hnd
  refine ⟨_, _, h1, ?_, hlast, ?_, ?_, ?_⟩
  · apply List.count_eq_one_of_mem hnd1
    exact (mem_mapKeys_setComps _ _ _ t).mpr (Or.inl hmem)
  · intro hv
    obtain ⟨kv, hkv, hsnd⟩ := List.mem_map.mp hv
    obtain ⟨k, v⟩ := kv
    simp only at hsnd
    subst hsnd
    obtain ⟨pre, suf1, e, hs, ha⟩ :=
      setComps_value_last _ ent.compMap w hown hnd hkv (by omega)
    have hlen1 : pre.length = p1.length := by omega
    obtain ⟨_, e2⟩ := List.append_inj e.symm hlen1
    injection e2 with e3 e4
    subst e3
    rw [e4] at hs
    exact hs (List.mem_append_right _ (List.mem_cons_self _ _))
  · rw [(setComps_world _ ent.compMap w).2.2]
    refine Or.inr ⟨by omega, ?_⟩
    rw [List.length_append, List.length_cons]
    omega
  · rw [has_of_mask_bits _ ws1 _ hcs hlen hbits t (hcs t hmem)]
    simp

theorem C15_duplicate_in_pack_witness :
    ∃ ent1 w1, incl ([] ++ 4 :: ([] ++ 4 :: [])) true Ent.fresh World.init =
        Except.ok (ent1, w1) ∧
      (mapKeys ent1.compMap).count 4 = 1 ∧
      ent1.compMap.lookup 4 =
        some (some (World.init.nextAddr +
          (([] : List Nat).length + 1 + ([] : List Nat).length))) ∧
      some (World.init.nextAddr + ([] : List Nat).length) ∉ mapValues ent1.compMap ∧
      World.init.nextAddr + ([] : List Nat).length ∈ w1.live ∧
      has 4 ent1 = Except.ok true :=
  C15_duplicate_in_pack [] Ent.fresh World.init (by rfl) [] [] [] 4
    (by
      intro b hb
      have h4 : b = 4 := by
        rcases List.mem_cons.mp hb with h | h
        · exact h
        · rcases List.mem_cons.mp h with h1 | h1
          · exact h1
          · cases h1
      exact ⟨0, by decide, by rw [h4]; rfl⟩)
    (by decide)

/-- C16: `incl` replaces the mask but merges into the map. After `incl` of `s1` followed by
`incl` of `s2` on an entity whose map was empty, the keys of `compMap` are pairwise different
and are exactly the identifiers of `s1` and `s2`; an entry of a type in `s1` but not in `s2`
keeps the instance that the first `incl` constructed, while its mask bit is clear; an entry
of a type in `s2`, so in particular of a type in both, holds an instance constructed by the
second `incl`. -/
theorem C16_incl_merges_map (s1 s2 : List Nat) (h1 : ∀ b ∈ s1, Allocated b)
    (h2 : ∀ b ∈ s2, Allocated b) (ent : Ent) (w : World)
    (hent : ent.compMask ≠ some Block.freed) (hmap : ent.compMap = []) :
    ∃ ent1 w1 ent2 w2, incl s1 true ent w = Except.ok (ent1, w1) ∧
      incl s2 true ent1 w1 = Except.ok (ent2, w2) ∧
      (mapKeys ent2.compMap).Nodup ∧
      (∀ k, k ∈ mapKeys ent2.compMap ↔ (k ∈ s1 ∨ k ∈ s2)) ∧
      (∀ t, t ∈ s1 → t ∉ s2 →
        ent2.compMap.lookup t = ent1.compMap.lookup t ∧
        (∃ a, ent2.compMap.lookup t = some (some a) ∧ w.nextAddr ≤ a ∧ a < w1.nextAddr) ∧
        has t ent1 = Except.ok true ∧ has t ent2 = Except.ok false) ∧
      (∀ t, t ∈ s2 →
        (∃ a, ent2.compMap.lookup t = some (some a) ∧ w1.nextAddr ≤ a ∧ a < w2.nextAddr) ∧
        has t ent2 = Except.ok true) := by
  obtain ⟨ws1, e1, hlen1, hbits1⟩ := incl_calloc_ok s1 ent w hent
  obtain ⟨ws2, e2, hlen2, hbits2⟩ :=
    incl_calloc_ok s2 ⟨some (Block.live ws1), (setComps s1 ent.compMap w).1⟩
      (setComps s1 ent.compMap w).2 (by simp)
  have hnd0 : (mapKeys ent.compMap).Nodup := by rw [hmap]; exact List.nodup_nil
  refine ⟨_, _, _, _, e1, e2, ?_, ?_, ?_, ?_⟩
  · exact nodup_mapKeys_setComps s2 _ _ (nodup_mapKeys_setComps s1 _ _ hnd0)
  · intro k
    show k ∈ mapKeys (setComps s2 (setComps s1 ent.compMap w).1 (setComps s1 ent.compMap w).2).1
      ↔ _
    rw [mem_mapKeys_setComps, mem_mapKeys_setComps, hmap]
    simp only [mapKeys, List.map_nil, List.not_mem_nil, or_false]
    tauto
  · intro t ht1 ht2
    obtain ⟨a, ha, hlo, hhi⟩ := setComps_lookup_fresh s1 ent.compMap w t ht1
    have hkeep : (setComps s2 (setComps s1 ent.compMap w).1
        (setComps s1 ent.compMap w).2).1.lookup t = (setComps s1 ent.compMap w).1.lookup t :=
      setComps_lookup_not_mem s2 _ _ t ht2
    refine ⟨hkeep, ⟨a, ?_, hlo, hhi⟩, ?_, ?_⟩
    · show (setComps s2 (setComps s1 ent.compMap w).1
        (setComps s1 ent.compMap w).2).1.lookup t = some (some a)
      rw [hkeep, ha]
    · rw [has_of_mask_bits s1 ws1 _ h1 hlen1 hbits1 t (h1 t ht1)]
      simp [ht1]
    · rw [has_of_mask_bits s2 ws2 _ h2 hlen2 hbits2 t (h1 t ht1)]
      simp [ht2]
  · intro t ht2
    refine ⟨setComps_lookup_fresh s2 _ _ t ht2, ?_⟩
    rw [has_of_mask_bits s2 ws2 _ h2 hlen2 hbits2 t (h2 t ht2)]
    simp [ht2]

theorem C16_incl_merges_map_witness :
    ∃ ent1 w1 ent2 w2, incl [4, 8] true Ent.fresh World.init = Except.ok (ent1, w1) ∧
      incl [8] true ent1 w1 = Except.ok (ent2, w2) ∧
      (mapKeys ent2.compMap).Nodup ∧
      (∀ k, k ∈ mapKeys ent2.compMap ↔ (k ∈ [4, 8] ∨ k ∈ [8])) ∧
      (∀ t, t ∈ [4, 8] → t ∉ [8] →
        ent2.compMap.lookup t = ent1.compMap.lookup t ∧
        (∃ a, ent2.compMap.lookup t = some (some a) ∧ World.init.nextAddr ≤ a ∧
          a < w1.nextAddr) ∧
        has t ent1 = Except.ok true ∧ has t ent2 = Except.ok false) ∧
      (∀ t, t ∈ [8] →
        (∃ a, ent2.compMap.lookup t = some (some a) ∧ w1.nextAddr ≤ a ∧ a < w2.nextAddr) ∧
        has t ent2 = Except.ok true) :=
  C16_incl_merges_map [4, 8] [8]
    (by
      intro b hb
      rcases List.mem_cons.mp hb with h | h
      · exact ⟨0, by decide, by rw [h]; rfl⟩
      · rcases List.mem_cons.mp h with h1 | h1
        · exact ⟨1, by decide, by rw [h1]; rfl⟩
        · cases h1)
    (by
      intro b hb
      rcases List.mem_cons.mp hb with h | h
      · exact ⟨1, by decide, by rw [h]; rfl⟩
      · cases h)
    Ent.fresh World.init (by decide) rfl

/-! ## Bounds and order-independence of the mask -/

theorem wordAt_of_lt {ws : List Nat} {i : Nat} (h : i < ws.length) :
    ws[i]? = some (wordAt ws i) := by
  unfold wordAt
  rw [List.getElem?_eq_getElem h]
  rfl

/-- Two lists of four words with the same bits are equal. -/
theorem words_ext {ws1 ws2 : List Nat} (h1 : ws1.length = 4) (h2 : ws2.length = 4)
    (h : ∀ i j, (wordAt ws1 i).testBit j = true ↔ (wordAt ws2 i).testBit j = true) :
    ws1 = ws2 := by
  apply List.ext_getElem?
  intro n
  by_cases hn : n < 4
  · rw [wordAt_of_lt (by omega), wordAt_of_lt (by omega)]
    congr 1
    apply Nat.eq_of_testBit_eq
    intro j
    rw [Bool.eq_iff_iff]
    exact h n j
  · rw [List.getElem?_eq_none (by omega), List.getElem?_eq_none (by omega)]

/-- On the zeroed mask `setmaskbit` returns for every pack, and the mask it writes is
determined by the set of listed identifiers. -/
theorem setmaskbit_zeroMask (cs : List Nat) :
    ∃ ws, setmaskbit cs zeroMask = Except.ok (some (Block.live ws)) ∧ ws.length = 4 ∧
      ∀ i j, (wordAt ws i).testBit j = true ↔
        ∃ b ∈ cs, b &&& MAX_IDX = i ∧ (b &&& not64 MAX_IDX).testBit j = true := by
  obtain ⟨ws, h1, hlen, hbits⟩ :=
    setmaskbit_live cs (List.replicate 4 0) (List.length_replicate 4 0)
  refine ⟨ws, ?_, hlen, ?_⟩
  · unfold zeroMask
    rw [add64_MAX_IDX_one]
    exact h1
  · intro i j
    rw [hbits i j, wordAt_replicate_zero, Nat.zero_testBit]
    simp

theorem setmaskbit_same_members (cs1 cs2 : List Nat) (h : ∀ b, b ∈ cs1 ↔ b ∈ cs2) :
    setmaskbit cs1 zeroMask = setmaskbit cs2 zeroMask := by
  obtain ⟨ws1, e1, hlen1, hbits1⟩ := setmaskbit_zeroMask cs1
  obtain ⟨ws2, e2, hlen2, hbits2⟩ := setmaskbit_zeroMask cs2
  rw [e1, e2]
  congr 3
  apply words_ext hlen1 hlen2
  intro i j
  rw [hbits1 i j, hbits2 i j]
  constructor
  · rintro ⟨b, hb, hr⟩
    exact ⟨b, (h b).mp hb, hr⟩
  · rintro ⟨b, hb, hr⟩
    exact ⟨b, (h b).mpr hb, hr⟩

/-- Every entity state reachable from a fresh entity by `incl` calls has no mask array or a
live one of four words. -/
theorem reachable_mask {calls : List (List Nat × Bool)} {ent : Ent} {w : World}
    (h : inclSeq calls Ent.fresh World.init = Except.ok (ent, w)) :
    ent.compMask = none ∨ ∃ ws, ent.compMask = some (Block.live ws) ∧ ws.length = 4 :=
  inclSeq_induction
    (fun e _ => e.compMask = none ∨ ∃ ws, e.compMask = some (Block.live ws) ∧ ws.length = 4)
    (fun _ => True)
    (fun _ _ _ _ _ _ _ _ hi => by
      obtain ⟨_, hc | hc⟩ := incl_cases hi
      · obtain ⟨_, ws1, he, _, hlen, _⟩ := hc
        rw [he]
        exact Or.inr ⟨ws1, rfl, hlen⟩
      · obtain ⟨_, _, he, _⟩ := hc
        rw [he]
        exact Or.inl rfl)
    calls Ent.fresh World.init ent w (fun _ _ => trivial) (Or.inl rfl) h

/-- C17: mask accesses are always in bounds. In every entity state reachable from a fresh
entity by `incl` calls, a mask array that is present has exactly `MAX_IDX + 1` words; for
every identifier value `b` the slot index `b & MAX_IDX` is less than `MAX_IDX + 1`; so `has`
returns for every `b`, and neither `setmaskbit` on the mask of the entity nor a further
`incl` ever takes the out-of-range branch of the array access. -/
theorem C17_mask_access_in_bounds (calls : List (List Nat × Bool)) (ent : Ent) (w : World)
    (h : inclSeq calls Ent.fresh World.init = Except.ok (ent, w)) :
    (∀ ws, ent.compMask = some (Block.live ws) → ws.length = MAX_IDX + 1) ∧
    (∀ b, b &&& MAX_IDX < MAX_IDX + 1) ∧
    (∀ b, ∃ r, has b ent = Except.ok r) ∧
    (∀ cs, setmaskbit cs ent.compMask ≠ Except.error Fault.outOfBounds) ∧
    (∀ cs ok, incl cs ok ent w ≠ Except.error Fault.outOfBounds) := by
  have hmask := reachable_mask h
  have hnf := (reachable_owned h).1
  refine ⟨?_, ?_, ?_, ?_, ?_⟩
  · intro ws hws
    rcases hmask with hm | ⟨ws1, hm, hlen⟩
    · rw [hm] at hws
      cases hws
    · rw [hm] at hws
      injection hws with hws
      injection hws with hws
      rw [← hws, hlen, MAX_IDX_eq]
  · intro b
    rw [MAX_IDX_eq]
    exact and_MAX_IDX_lt b
  · intro b
    obtain ⟨mask, m⟩ := ent
    rcases hmask with hm | ⟨ws1, hm, hlen⟩
    · simp only at hm
      subst hm
      exact ⟨false, rfl⟩
    · simp only at hm
      subst hm
      exact ⟨_, has_live b ws1 m hlen⟩
  · intro cs
    rcases hmask with hm | ⟨ws1, hm, hlen⟩
    · rw [hm]
      cases cs with
      | nil => intro hc; cases hc
      | cons b bs => intro hc; cases hc
    · rw [hm]
      obtain ⟨ws2, h2, _, _⟩ := setmaskbit_live cs ws1 hlen
      rw [h2]
      intro hc
      cases hc
  · intro cs ok
    cases ok with
    | true =>
      obtain ⟨ws1, h1, _, _⟩ := incl_calloc_ok cs ent w hnf
      rw [h1]
      intro hc
      cases hc
    | false =>
      cases cs with
      | nil =>
        rw [incl_calloc_fail_nil ent w hnf]
        intro hc
        cases hc
      | cons b bs =>
        rw [incl_calloc_fail_cons b bs ent w hnf]
        intro hc
        cases hc

theorem C17_mask_access_in_bounds_witness :
    (∀ ws, (Ent.mk (some (Block.live [4, 0, 0, 0])) [(4, some 0)]).compMask =
        some (Block.live ws) → ws.length = MAX_IDX + 1) ∧
    (∀ b, b &&& MAX_IDX < MAX_IDX + 1) ∧
    (∀ b, ∃ r, has b ⟨some (Block.live [4, 0, 0, 0]), [(4, some 0)]⟩ = Except.ok r) ∧
    (∀ cs, setmaskbit cs (Ent.mk (some (Block.live [4, 0, 0, 0])) [(4, some 0)]).compMask ≠
        Except.error Fault.outOfBounds) ∧
    (∀ cs ok, incl cs ok ⟨some (Block.live [4, 0, 0, 0]), [(4, some 0)]⟩ ⟨1, [0], []⟩ ≠
        Except.error Fault.outOfBounds) :=
  C17_mask_access_in_bounds [([4], true)]
    ⟨some (Block.live [4, 0, 0, 0]), [(4, some 0)]⟩ ⟨1, [0], []⟩ (by rfl)

/-- C18: the mask written by `setmaskbit` depends only on the set of listed types. For two
packs that are permutations of each other, or that list the same types with different
repetitions, `setmaskbit` applied to the zeroed mask returns the same mask array of
`MAX_IDX + 1` words; in particular dropping the repeated entries of a pack does not change
the mask. -/
theorem C18_setmaskbit_set_only (cs1 cs2 : List Nat)
    (h : cs1.Perm cs2 ∨ ∀ b, b ∈ cs1 ↔ b ∈ cs2) :
    setmaskbit cs1 zeroMask = setmaskbit cs2 zeroMask ∧
    (∃ ws, setmaskbit cs1 zeroMask = Except.ok (some (Block.live ws)) ∧
      ws.length = MAX_IDX + 1) ∧
    setmaskbit cs1.dedup zeroMask = setmaskbit cs1 zeroMask := by
  refine ⟨?_, ?_, ?_⟩
  · rcases h with hp | hm
    · exact setmaskbit_same_members cs1 cs2 (fun b => hp.mem_iff)
    · exact setmaskbit_same_members cs1 cs2 hm
  · obtain ⟨ws, e, hlen, _⟩ := setmaskbit_zeroMask cs1
    exact ⟨ws, e, by rw [hlen, MAX_IDX_eq]⟩
  · exact setmaskbit_same_members cs1.dedup cs1 (fun b => List.mem_dedup)

theorem C18_setmaskbit_set_only_witness :
    setmaskbit [4, 5, 4] zeroMask = setmaskbit [5, 4] zeroMask ∧
    (∃ ws, setmaskbit [4, 5, 4] zeroMask = Except.ok (some (Block.live ws)) ∧
      ws.length = MAX_IDX + 1) ∧
    setmaskbit [4, 5, 4].dedup zeroMask = setmaskbit [4, 5, 4] zeroMask :=
  C18_setmaskbit_set_only [4, 5, 4] [5, 4]
    (Or.inr (by
      intro b
      simp only [List.mem_cons, List.mem_singleton, List.not_mem_nil, or_false]
      tauto))

end Becs
